import Mathlib

/-!
Verification development for the bloaty-csv-reader symbol pipeline
(`src/components/SymbolAnalyzer.tsx`).

The TypeScript source is shallowly embedded here.  JavaScript runtime
values that flow through the pipeline (CSV cells after PapaParse
`dynamicTyping`, tree node sizes and counters) are modelled by `JsVal`:
`undefined`, `NaN`, integer numbers, and strings.  Modelling cuts, each
noted where it is made: JS numbers are modelled as integers (the inputs
are byte sizes and counts); `localeCompare` is modelled as code-unit
lexicographic comparison; `String.prototype.toLowerCase` and `trim` are
modelled on ASCII via `Char.toLower` / `Char.isWhitespace`; symbol names
are assumed newline-free, so the `m` regexp flag on the `$`-anchored
suffix patterns is inert; `ToNumber` on a nonempty string is modelled as
NaN (PapaParse `dynamicTyping` has already converted numeric strings to
numbers upstream, and only the empty string survives the row filter).
-/

/-- Model of the JavaScript values reaching the pipeline: `undefined`,
`NaN`, (integer) numbers, and strings. -/
inductive JsVal where
  | undef : JsVal
  | nan : JsVal
  | num : Int → JsVal
  | str : String → JsVal
deriving DecidableEq, Repr

namespace JsVal

/-- JS truthiness: `undefined`, `NaN`, `0` and `""` are falsy. -/
def truthy : JsVal → Bool
  | .undef => false
  | .nan => false
  | .num n => n ≠ 0
  | .str s => s ≠ ""

/-- Whether `typeof v === "number"` (NaN is a number in JS). -/
def isNumType : JsVal → Bool
  | .num _ => true
  | .nan => true
  | _ => false

/-- Whether the value is an actual (non-NaN) number. -/
def isNum : JsVal → Bool
  | .num _ => true
  | _ => false

/-- JS `ToNumber`, with `none` standing for NaN.  `undefined` converts to
NaN, `""` to `0`; a nonempty string is modelled as NaN (see header note). -/
def toNum : JsVal → Option Int
  | .undef => none
  | .nan => none
  | .num n => some n
  | .str s => if s = "" then some 0 else none

/-- JS `ToString`, as far as the pipeline can observe it. -/
def jsToString : JsVal → String
  | .undef => "undefined"
  | .nan => "NaN"
  | .num n => toString n
  | .str s => s

/-- JS `+`: string concatenation when either side is a string, numeric
addition otherwise, NaN-propagating. -/
def jsAdd (a b : JsVal) : JsVal :=
  match a, b with
  | .str sa, _ => .str (sa ++ jsToString b)
  | _, .str sb => .str (jsToString a ++ sb)
  | _, _ =>
    match toNum a, toNum b with
    | some x, some y => .num (x + y)
    | _, _ => .nan

/-- JS `-` (always numeric, NaN-propagating). -/
def jsSub (a b : JsVal) : JsVal :=
  match toNum a, toNum b with
  | some x, some y => .num (x - y)
  | _, _ => .nan

/-- JS strict equality `===` on the modelled values (`NaN !== NaN`). -/
def jsEq : JsVal → JsVal → Bool
  | .num a, .num b => a = b
  | .str a, .str b => a = b
  | .undef, .undef => true
  | _, _ => false

/-- JS `??`: the right operand when the left is `undefined` (or `null`). -/
def jsNullish (a b : JsVal) : JsVal :=
  match a with
  | .undef => b
  | v => v

/-- JS `<` between a value and a number: NaN comparisons are false. -/
def jsLtNum (a : JsVal) (m : Int) : Bool :=
  match toNum a with
  | some x => x < m
  | none => false

/-- The integer carried by a `num`, and `0` otherwise (used only where an
invariant guarantees the value is a `num`). -/
def numOf : JsVal → Int
  | .num n => n
  | _ => 0

end JsVal

/-! ## Character-list utilities

All string scanning is done on `List Char` by structural recursion, so
that every definition evaluates inside the kernel. -/

/-- Whether `pat` is a prefix of `cs` (JS `startsWith`). -/
def isPre (pat : String) (cs : List Char) : Bool :=
  pat.data.isPrefixOf cs

/-- Does any suffix of `cs` satisfy `p`?  Used to model unanchored regexp
search. -/
def anyTail (p : List Char → Bool) : List Char → Bool
  | [] => p []
  | c :: cs => p (c :: cs) || anyTail p cs

/-- Whether `pat` occurs as a contiguous substring of `cs`. -/
def hasSub (pat : String) (cs : List Char) : Bool :=
  anyTail (fun t => pat.data.isPrefixOf t) cs

/-- Code-unit lexicographic strict comparison of char lists. -/
def listLt : List Char → List Char → Bool
  | [], [] => false
  | [], _ :: _ => true
  | _ :: _, [] => false
  | c :: cs, d :: ds =>
    if c.toNat < d.toNat then true
    else if d.toNat < c.toNat then false
    else listLt cs ds

/-- Model of `a.localeCompare(b) <= 0`: code-unit lexicographic order
(the locale-sensitive collation of `localeCompare` is modelled as plain
lexicographic comparison). -/
def strLe (a b : String) : Bool :=
  !listLt b.data a.data

/-- JS `String.prototype.trim`, modelled with `Char.isWhitespace`. -/
def trimCs (cs : List Char) : List Char :=
  ((cs.dropWhile Char.isWhitespace).reverse.dropWhile Char.isWhitespace).reverse

/-- Split on a single character (JS `split(".")`). -/
def splitChar (sep : Char) : List Char → List (List Char) :=
  go []
where
  go (acc : List Char) : List Char → List (List Char)
    | [] => [acc.reverse]
    | c :: cs => if c = sep then acc.reverse :: go [] cs else go (c :: acc) cs

/-- Split on `"::"` (JS `split("::")`), leftmost-first. -/
def splitColons : List Char → List (List Char) :=
  go []
where
  go (acc : List Char) : List Char → List (List Char)
    | ':' :: ':' :: cs => acc.reverse :: go [] cs
    | c :: cs => go (c :: acc) cs
    | [] => [acc.reverse]

/-- Whether `cs` contains `"::"`. -/
def hasColons : List Char → Bool
  | ':' :: ':' :: _ => true
  | _ :: cs => hasColons cs
  | [] => false

/-- Strip a suffix of shape `<tag><digits>` (at least one digit) from the
end of `cs`; `none` when the suffix is not present.  Models a `$`-anchored
regexp `<tag>([0-9]+)$`. -/
def dropDigitsTag (tag : String) (cs : List Char) : Option (List Char) :=
  let r := cs.reverse
  let ds := r.takeWhile Char.isDigit
  if ds.isEmpty then none
  else
    let r' := r.drop ds.length
    let tr := tag.data.reverse
    if tr.isPrefixOf r' then some ((r'.drop tr.length).reverse) else none

/-- Strip a suffix matching `__anon_([0-9]+)__struct_([0-9]+)$`. -/
def dropAnonStruct (cs : List Char) : Option (List Char) :=
  match dropDigitsTag "__struct_" cs with
  | none => none
  | some cs' => dropDigitsTag "__anon_" cs'

example : dropDigitsTag "__anon_" "foo__anon_1".data = some "foo".data := by decide
example : dropDigitsTag "__anon_" "foo__anon_".data = none := by decide
example : dropAnonStruct "x__anon_12__struct_3".data = some "x".data := by decide
example : splitChar '.' "a..b".data = ["a".data, [], "b".data] := by decide
example : splitColons "a::b::c".data = ["a".data, "b".data, "c".data] := by decide
example : hasSub "__" "a_b__c".data = true := by decide
example : strLe "a" "b" = true ∧ strLe "b" "a" = false := by decide

/-! ## Tree model

`TreeNode` from the source: `{name, size, children, fullPath?,
originalSymbol?, instantiations}`.  The `children` record maps each
segment name to a node whose `name` field equals that key (this is an
invariant of every write in the source), so children are modelled as an
insertion-ordered list of nodes, looked up by `name`. -/

mutual
inductive TreeNode where
  | mk (name : String) (size : JsVal) (children : TreeList)
       (fullPath : Option String) (origSym : Option String) (insts : JsVal)
inductive TreeList where
  | nil
  | cons (hd : TreeNode) (tl : TreeList)
end

def TreeNode.name : TreeNode → String
  | .mk n _ _ _ _ _ => n

def TreeNode.size : TreeNode → JsVal
  | .mk _ s _ _ _ _ => s

def TreeNode.children : TreeNode → TreeList
  | .mk _ _ cs _ _ _ => cs

def TreeNode.fullPath : TreeNode → Option String
  | .mk _ _ _ fp _ _ => fp

def TreeNode.origSym : TreeNode → Option String
  | .mk _ _ _ _ og _ => og

def TreeNode.insts : TreeNode → JsVal
  | .mk _ _ _ _ _ i => i

def TreeList.isNil : TreeList → Bool
  | .nil => true
  | .cons _ _ => false

/-- Lookup of `children[p]` (first node whose name is `p`). -/
def findName (p : String) : TreeList → Option TreeNode
  | .nil => none
  | .cons t ts => if t.name = p then some t else findName p ts

/-- Whether an own child keyed `p` exists.  This is only the
own-property half of a JS `children[p]` read; the inherited
`Object.prototype` half is modelled at the lookup's use site in
`insertSeg` via `isProtoName`. -/
def hasName (p : String) (ts : TreeList) : Bool :=
  (findName p ts).isSome

/-- Apply `f` to the first node named `p`, leaving the rest unchanged
(assignment to an existing record key). -/
def updFirst (p : String) (f : TreeNode → TreeNode) : TreeList → TreeList
  | .nil => .nil
  | .cons t ts => if t.name = p then .cons (f t) ts else .cons t (updFirst p f ts)

/-- Append a node (assignment to a fresh record key goes to the end of
the insertion order). -/
def snoc : TreeList → TreeNode → TreeList
  | .nil, x => .cons x .nil
  | .cons t ts, x => .cons t (snoc ts x)

/-- Node lookup along a path of segment names. -/
def nodeAt : List String → TreeList → Option TreeNode
  | [], _ => none
  | [p], ts => findName p ts
  | p :: rest, ts =>
    match findName p ts with
    | some t => nodeAt rest t.children
    | none => none

/-! ## Path segmenter (`processSymbol`, source lines 217–256) -/

/-- Guard of the keyword-stripping `while` loop: the disjunction of the
fifteen `startsWith` tests.  Note `"void*"` and `"char*"` are tested
without a following space, exactly as in the source. -/
def kwGuard (cs : List Char) : Bool :=
  isPre "void " cs || isPre "auto " cs || isPre "int " cs || isPre "char " cs ||
  isPre "long " cs || isPre "short " cs || isPre "unsigned " cs || isPre "float " cs ||
  isPre "double " cs || isPre "bool " cs || isPre "void*" cs || isPre "char*" cs ||
  isPre "const " cs || isPre "volatile " cs || isPre "restrict " cs

/-- Body of the loop: `symbol = symbol.slice(symbol.indexOf(" ") + 1)`.
When there is no space, `indexOf` is `-1` and `slice(0)` leaves the
string unchanged. -/
def stripStep (cs : List Char) : List Char :=
  match cs.findIdx? (· = ' ') with
  | some i => cs.drop (i + 1)
  | none => cs

/-- Fuelled keyword-stripping loop; `none` models non-termination.  Each
productive iteration (`indexOf(" ") ≥ 0`) shortens the string, so fuel
`length + 1` exhausts only when an iteration leaves the string unchanged,
in which case the deterministic loop runs forever. -/
def stripGo : Nat → List Char → Option (List Char)
  | 0, _ => none
  | n + 1, cs => if kwGuard cs then stripGo n (stripStep cs) else some cs

def stripKeywords (cs : List Char) : Option (List Char) :=
  stripGo (cs.length + 1) cs

/-- The source's `cleanName`: `trim`, with `""` for a falsy input (which
`trim` also fixes). -/
def cleanName (cs : List Char) : List Char := trimCs cs

/-- The `startsWith("[")` test. -/
def headBracket : List Char → Bool
  | '[' :: _ => true
  | _ => false

/-- Model of `processSymbol`: keyword stripping, then the bracket / dot /
double-colon / whole-name strategies in priority order.  `none` models
the non-terminating keyword loop. -/
def processSymbol (symbol : String) : Option (List String) :=
  match stripKeywords symbol.data with
  | none => none
  | some cs =>
    let parts : List (List Char) :=
      if headBracket cs then [cs]
      else if cs.contains '.' then ((splitChar '.' cs).map cleanName).filter (fun l => !l.isEmpty)
      else if hasColons cs then ((splitColons cs).map cleanName).filter (fun l => !l.isEmpty)
      else [cleanName cs]
    some (parts.map (fun l => String.mk l))

example : processSymbol "Namespace::Class::method" = some ["Namespace", "Class", "method"] := by decide
example : processSymbol "[vtable for X]" = some ["[vtable for X]"] := by decide
example : processSymbol "const char* foo.bar" = some ["foo", "bar"] := by decide
example : processSymbol "void*x" = none := by decide
example : processSymbol "" = some [""] := by decide

/-! ## Symbol classifier (`categorizeSymbol`, source lines 68–111) -/

/-- Scan for `]` with no (regexp-`.`-excluded) line terminator before it. -/
def closeBracket : List Char → Bool
  | ']' :: _ => true
  | '\n' :: _ => false
  | '\r' :: _ => false
  | _ :: cs => closeBracket cs
  | [] => false

/-- Regexp `/^\[.*\]/`. -/
def bracketForm : List Char → Bool
  | '[' :: rest => closeBracket rest
  | _ => false

/-- Suffix test in the style of `str.match(/\.dynsym$/)`. -/
def endsWithStr (sfx : String) (cs : List Char) : Bool :=
  sfx.data.reverse.isPrefixOf cs.reverse

/-- Regexp `/^_[A-Z_]/`. -/
def underCap : List Char → Bool
  | '_' :: c :: _ => c.isUpper || c = '_'
  | _ => false

/-- The SYS-V pattern group. -/
def sysvB (cs : List Char) : Bool :=
  bracketForm cs || hasSub "__" cs || endsWithStr ".dynsym" cs ||
  underCap cs || hasSub "_Prototype__" cs

def isHexLower (c : Char) : Bool :=
  c.isDigit || ('a' ≤ c && c ≤ 'f')

/-- Regexp of the Rust hash segment: an `h` followed by 16 lowercase hex digits. -/
def hashHex : List Char → Bool :=
  anyTail fun t =>
    match t with
    | 'h' :: rest => (rest.take 16).length = 16 && (rest.take 16).all isHexLower
    | _ => false

def low09 (c : Char) : Bool :=
  c.isDigit || ('a' ≤ c && c ≤ 'z')

/-- Regexp of the Rust module-path convention (`::_$` or `::` plus two low chars plus `_`). -/
def rustMod (cs : List Char) : Bool :=
  hasSub "::_$" cs ||
  anyTail (fun t =>
    match t with
    | ':' :: ':' :: x :: y :: '_' :: _ => low09 x && low09 y
    | _ => false) cs

/-- The Rust pattern group. -/
def rustB (cs : List Char) : Bool :=
  hashHex cs || hasSub "_rs::" cs || isPre "rust_" cs || rustMod cs ||
  hasSub "$u20$" cs || hasSub "$LT$" cs || hasSub "$GT$" cs || hasSub "lol_html" cs

/-- Scan for `>` with no line terminator before it. -/
def closeAngle : List Char → Bool
  | '>' :: _ => true
  | '\n' :: _ => false
  | '\r' :: _ => false
  | _ :: cs => closeAngle cs
  | [] => false

/-- Regexp of an angle-bracket pair on one line. -/
def angleForm : List Char → Bool :=
  anyTail fun t =>
    match t with
    | '<' :: rest => closeAngle rest
    | _ => false

/-- Regexp of the capitalized `_t` type name: uppercase head, `_t` suffix, no dot anywhere. -/
def capT (cs : List Char) : Bool :=
  match cs with
  | c :: _ => c.isUpper && endsWithStr "_t" cs && !cs.contains '.'
  | [] => false

/-- The C++ pattern group. -/
def cppB (cs : List Char) : Bool :=
  hasColons cs || angleForm cs || hasSub "namespace" cs || capT cs

/-- The Zig pattern (a remaining dot). -/
def zigB (cs : List Char) : Bool :=
  cs.contains '.'

/-- The pattern ladder on a (nonempty) string. -/
def categorizeStr (s : String) : String :=
  let cs := s.data
  if sysvB cs then "SYS-V"
  else if rustB cs then "Rust"
  else if cppB cs then "C++"
  else if zigB cs then "Zig"
  else "Other"

/-- Model of `categorizeSymbol`: absent or falsy input yields `"Other"`, otherwise
the ladder decides. -/
def categorizeSymbol (fullPath : Option String) : String :=
  match fullPath with
  | none => "Other"
  | some s => if s = "" then "Other" else categorizeStr s

example : categorizeSymbol (some "Namespace::Class::method") = "C++" := by decide
example : categorizeSymbol (some "alloc::h0123456789abcdef") = "Rust" := by decide
example : categorizeSymbol (some "[anon_symbol]") = "SYS-V" := by decide
example : categorizeSymbol (some "foo.bar") = "Zig" := by decide
example : categorizeSymbol none = "Other" := by decide

/-! ## Row normalizer (`processFile` filter and sort, source lines 715–729) -/

/-- A raw CSV row after PapaParse `dynamicTyping`: each field is an
arbitrary JS value. -/
structure RawRow where
  symbols : JsVal
  vmsize : JsVal
  instantiations : JsVal
deriving DecidableEq, Repr

/-- A kept row: the filter guarantees `symbols` is a nonempty string. -/
structure NormRow where
  symbols : String
  vmsize : JsVal
  instantiations : JsVal
deriving DecidableEq, Repr

/-- The row filter: `symbols` must be a truthy string; the row is kept
when `vmsize` is falsy or has number type, dropped otherwise. -/
def toKept (r : RawRow) : Option NormRow :=
  match r.symbols with
  | .str s =>
    if s = "" then none
    else if !r.vmsize.truthy || r.vmsize.isNumType then
      some ⟨s, r.vmsize, r.instantiations⟩
    else none
  | _ => none

/-- The sort comparator, as the relation "`a` may come before `b`", i.e.
`c(a,b) ≤ 0` for `c(a,b) = b.vmsize === a.vmsize ?
a.symbols.localeCompare(b.symbols) : b.vmsize - a.vmsize`.  A NaN
comparator result is treated as zero by the sort. -/
def rowBefore (a b : NormRow) : Bool :=
  if JsVal.jsEq b.vmsize a.vmsize then strLe a.symbols b.symbols
  else
    match JsVal.jsSub b.vmsize a.vmsize with
    | .num d => d ≤ 0
    | _ => true

/-- Stable insertion of `x` into a sorted list. -/
def insertSorted (le : α → α → Bool) (x : α) : List α → List α
  | [] => [x]
  | y :: ys => if le x y then x :: y :: ys else y :: insertSorted le x ys

/-- Stable sort (ECMAScript `Array.prototype.sort` is stable; the
engine's algorithm is modelled as stable insertion sort). -/
def stableSort (le : α → α → Bool) : List α → List α
  | [] => []
  | x :: xs => insertSorted le x (stableSort le xs)

/-- The normalizer: filter, then sort. -/
def normalizeRows (rows : List RawRow) : List NormRow :=
  stableSort rowBefore (rows.filterMap toKept)

example :
    (normalizeRows [⟨.str "b", .num 100, .num 0⟩, ⟨.str "a", .num 100, .num 0⟩]).map NormRow.symbols
      = ["a", "b"] := by decide
example :
    (normalizeRows [⟨.str "a", .num 5, .num 0⟩, ⟨.str "b", .num 100, .num 0⟩,
      ⟨.str "c", .str "bad", .num 0⟩, ⟨.num 3, .num 7, .num 0⟩]).map NormRow.symbols
      = ["b", "a"] := by decide

/-! ## Instantiation collapser (`processFile` dedup loop, source lines 730–751) -/

/-- The dedup name-stripping chain:
`replaceAll(/__struct_([0-9]+)$/gm, "")` then
`replaceAll(/__anon_([0-9]+)__struct_([0-9]+)$/g, "")` then
`replaceAll(/__anon_([0-9]+)$/gm, "")`. -/
def stripFull (s : String) : String :=
  let c1 := (dropDigitsTag "__struct_" s.data).getD s.data
  let c2 := (dropAnonStruct c1).getD c1
  let c3 := (dropDigitsTag "__anon_" c2).getD c2
  String.mk c3

example : stripFull "foo__anon_1" = "foo" := by decide
example : stripFull "x__anon_2__struct_7" = "x" := by decide
example : stripFull "y__struct_3" = "y" := by decide
example : stripFull "___anon_1" = "_" := by decide

/-- Merge one row into the existing map entry keyed `nm`:
`existing.vmsize += symbol.vmsize` and
`existing.instantiations += (symbol.instantiations ?? 0) + 1`. -/
def updRow (nm : String) (r : NormRow) : List NormRow → List NormRow
  | [] => []
  | x :: xs =>
    if x.symbols = nm then
      ⟨x.symbols, JsVal.jsAdd x.vmsize r.vmsize,
        JsVal.jsAdd x.instantiations
          (JsVal.jsAdd (JsVal.jsNullish r.instantiations (.num 0)) (.num 1))⟩ :: xs
    else x :: updRow nm r xs

/-- `Map.prototype.set`: an existing key keeps its insertion-order
position and has its value replaced; a fresh key is appended. -/
def mapSet (key : String) (row : NormRow) : List NormRow → List NormRow
  | [] => [row]
  | x :: xs => if x.symbols = key then row :: xs else x :: mapSet key row xs

/-- The dedup loop.  The `Map` is modelled as the insertion-ordered list
of its values; every stored row's `symbols` field equals its map key
(the source sets `symbol.symbols = name` before inserting, except in the
`name === "_"` special case, where the key is the untouched original
name, so `Map.set` can overwrite an entry that was stored under that
same original name). -/
def dedupGo (acc : List NormRow) : List NormRow → List NormRow
  | [] => acc
  | r :: rs =>
    let nm := stripFull r.symbols
    if (acc.find? (fun x => x.symbols = nm)).isSome then
      dedupGo (updRow nm r acc) rs
    else
      let sym := if nm = "_" && r.symbols ≠ "_" then r.symbols else nm
      dedupGo (mapSet sym ⟨sym, r.vmsize, JsVal.jsNullish r.instantiations (.num 0)⟩ acc) rs

/-- The `Array.from(dedupedSymbols.values())` step. -/
def dedupRecords (rows : List NormRow) : List NormRow := dedupGo [] rows

example :
    dedupRecords [⟨"foo__anon_2", .num 20, .num 0⟩, ⟨"foo__anon_1", .num 10, .num 0⟩]
      = [⟨"foo", .num 30, .num 1⟩] := by decide
example :
    dedupRecords [⟨"___anon_1", .num 3, .num 0⟩, ⟨"___anon_1", .num 4, .num 0⟩]
      = [⟨"___anon_1", .num 4, .num 0⟩] := by decide

/-! ## Tree builder (`processFile` insertion loop, lines 769–801, and
`calculateTotalSize`, lines 804–816) -/

/-- A freshly created child node. -/
def newChild (p path orig : String) : TreeNode :=
  .mk p (.num 0) .nil (some path) (some orig) (.num 0)

/-- The terminal-segment update: `current.size += symbol.vmsize;
current.instantiations += symbol.instantiations`. -/
def addLeaf (sz inst : JsVal) : TreeNode → TreeNode
  | .mk n s cs fp og i => .mk n (JsVal.jsAdd s sz) cs fp og (JsVal.jsAdd i inst)

/-- The property names every plain object inherits from the standard
`Object.prototype` (all of them bind truthy values: methods, or the
`__proto__` accessor returning the prototype object). -/
def protoNames : List String :=
  ["constructor", "hasOwnProperty", "isPrototypeOf", "propertyIsEnumerable",
   "toLocaleString", "toString", "valueOf", "__defineGetter__",
   "__defineSetter__", "__lookupGetter__", "__lookupSetter__", "__proto__"]

/-- Whether a `children[p]` read on a plain object with no own key `p`
still yields a truthy inherited value. -/
def isProtoName (p : String) : Bool :=
  protoNames.contains p

/-- No segment of the walk collides with an inherited
`Object.prototype` property name. -/
def protoFree (parts : List String) : Bool :=
  parts.all (fun p => !isProtoName p)

/-- The `parts.forEach` insertion walk.  A falsy part is skipped
(`if (!part) return` continues with the next part without extending the
path).  The guard `!current?.children?.[part]` is a JS property read: an
own child shadows everything, but with no own child a `part` naming an
`Object.prototype` member reads the truthy inherited value, so creation
is skipped and `current = current.children[part]` walks into the
inherited object — every later mutation of this record (including the
terminal size/count deposit) then lands outside the root-reachable tree,
which stays unchanged.  Otherwise the child is created ("first writer
wins" for `fullPath`/`originalSymbol`), and the terminal part (`i ===
parts.length - 1`) receives the size and count.  (The model assumes the
standard unpolluted `Object.prototype`; a record with a `__proto__`
segment can mutate the global prototype object itself, which — like
everything on the escaped walk — is invisible to the returned tree.) -/
def insertSeg (orig : String) (sz inst : JsVal) : List String → String → TreeNode → TreeNode
  | [], _, t => t
  | p :: rest, path, .mk n s cs fp og i =>
    if p = "" then insertSeg orig sz inst rest path (.mk n s cs fp og i)
    else if !hasName p cs && isProtoName p then
      .mk n s cs fp og i
    else
      let path' := if path = "" then p else path ++ "::" ++ p
      let cs1 := if hasName p cs then cs else snoc cs (newChild p path' orig)
      .mk n s
        (updFirst p
          (fun c => insertSeg orig sz inst rest path'
            (if rest.isEmpty then addLeaf sz inst c else c)) cs1)
        fp og i

/-- The sentinel root. -/
def rootInit : TreeNode := .mk "root" (.num 0) .nil none none (.num 0)

example :
    insertSeg "Foo::toString" (.num 5) (.num 0) ["Foo", "toString"] "" rootInit
      = .mk "root" (.num 0)
          (.cons (.mk "Foo" (.num 0) .nil (some "Foo") (some "Foo::toString") (.num 0)) .nil)
          none none (.num 0) := rfl

/-- Insert one record; `none` when segmenting it diverges (the source's
per-record `try`/`catch` catches exceptions, but the keyword loop's
non-termination is not an exception). -/
def insertRecord (t : TreeNode) (r : NormRow) : Option TreeNode :=
  match processSymbol r.symbols with
  | none => none
  | some parts => some (insertSeg r.symbols r.vmsize r.instantiations parts "" t)

/-- Insert all records in order. -/
def buildRoot (records : List NormRow) : Option TreeNode :=
  records.foldl (fun acc r => acc.bind (fun t => insertRecord t r)) (some rootInit)

/-- The `x || 0` coercion. -/
def jsOrZero (v : JsVal) : JsVal :=
  if v.truthy then v else .num 0

/-- The `reduce` in `calculateTotalSize`:
`sum + (calculateTotalSize(child) || 0)` left to right from `0`, on
already-aggregated children. -/
def sumCalc : JsVal → TreeList → JsVal
  | acc, .nil => acc
  | acc, .cons t ts => sumCalc (JsVal.jsAdd acc (jsOrZero t.size)) ts

mutual
/-- Model of `calculateTotalSize`: every node's size becomes
`(node.size || 0) + Σ (aggregated child size || 0)`. -/
def calcTree : TreeNode → TreeNode
  | .mk n s cs fp og i =>
    let cs' := calcTreeL cs
    .mk n (JsVal.jsAdd (jsOrZero s) (sumCalc (.num 0) cs')) cs' fp og i
def calcTreeL : TreeList → TreeList
  | .nil => .nil
  | .cons t ts => .cons (calcTree t) (calcTreeL ts)
end

/-- The complete handler body: normalize, dedup, build, aggregate.
(No variant-merge pass appears here; `mergeInstantiations` is defined in
the source but never invoked by `processFile`.) -/
def processComplete (rows : List RawRow) : Option TreeNode :=
  (buildRoot (dedupRecords (normalizeRows rows))).map calcTree

/-! ## Variant merger (`mergeInstantiations`, source lines 305–371) -/

/-- The ephemeral `SymbolGroup` of the merge pass (its unused `children`
field is omitted). -/
structure SymbolGroup where
  gname : String
  gsize : JsVal
  gcount : Int
  ginsts : Int
  gorigs : List String
deriving DecidableEq, Repr

/-- The grouping strip of `processNode`:
`replaceAll(/__anon_([0-9]+)__struct_([0-9]+)$/g, "")` then
`replaceAll(/__anon_([0-9]+)$/g, "")`. -/
def stripMergeG (s : String) : String :=
  let c1 := (dropAnonStruct s.data).getD s.data
  String.mk ((dropDigitsTag "__anon_" c1).getD c1)

/-- The annotation strip of `transformNode`:
`replaceAll(/__anon_[0-9]+$/gm, "")` then
`replaceAll(/__anon_([0-9]+)__struct_([0-9]+)$/g, "")`. -/
def stripMergeT (s : String) : String :=
  let c1 := (dropDigitsTag "__anon_" s.data).getD s.data
  String.mk ((dropAnonStruct c1).getD c1)

/-- The conditional `group.originalSymbols.push` of a truthy original symbol. -/
def pushOrig : Option String → List String
  | some s => if s = "" then [] else [s]
  | none => []

/-- The per-leaf group update: `size += node.size; count += 1;
instantiations += 1;` plus the conditional push. -/
def updGroup (nsize : JsVal) (norig : Option String) (g : SymbolGroup) : SymbolGroup :=
  ⟨g.gname, JsVal.jsAdd g.gsize nsize, g.gcount + 1, g.ginsts + 1,
    g.gorigs ++ pushOrig norig⟩

/-- Apply `f` to the first group keyed `base`. -/
def updFirstGroup (base : String) (f : SymbolGroup → SymbolGroup) :
    List SymbolGroup → List SymbolGroup
  | [] => []
  | g :: gs => if g.gname = base then f g :: gs else g :: updFirstGroup base f gs

/-- Lookup via `groups.get(key)`, then create-if-absent, then the update. -/
def groupAdd (gs : List SymbolGroup) (base : String) (nsize : JsVal)
    (norig : Option String) : List SymbolGroup :=
  if (gs.find? (fun g => g.gname = base)).isSome then
    updFirstGroup base (updGroup nsize norig) gs
  else
    gs ++ [updGroup nsize norig ⟨base, .num 0, 0, 0, []⟩]

mutual
/-- Model of `processNode`: a leaf with a nonempty stripped base name joins its
group; children are processed recursively in order. -/
def procNode (gs : List SymbolGroup) : TreeNode → List SymbolGroup
  | .mk n s cs _ og _ =>
    let base := stripMergeG n
    let gs1 :=
      if cs.isNil then (if base ≠ "" then groupAdd gs base s og else gs) else gs
    procList gs1 cs
def procList (gs : List SymbolGroup) : TreeList → List SymbolGroup
  | .nil => gs
  | .cons t ts => procList (procNode gs t) ts
end

mutual
/-- Model of `transformNode`: rebuild children, keep every field except
`instantiations`, which becomes `group?.count || node.instantiations`
for the group keyed by the stripped own name. -/
def transformNode (gs : List SymbolGroup) : TreeNode → TreeNode
  | .mk n s cs fp og i =>
    let cs' := transformList gs cs
    let newInsts :=
      match gs.find? (fun g => g.gname = stripMergeT n) with
      | some g => if g.gcount ≠ 0 then JsVal.num g.gcount else i
      | none => i
    .mk n s cs' fp og newInsts
def transformList (gs : List SymbolGroup) : TreeList → TreeList
  | .nil => .nil
  | .cons t ts => .cons (transformNode gs t) (transformList gs ts)
end

/-- Model of `mergeInstantiations(symbols)`: collect leaf groups, then annotate
every node. -/
def mergeInstantiations (ts : TreeList) : TreeList :=
  transformList (procList [] ts) ts

/-! ## Filter predicate (`matchesFilters`, source lines 655–671) -/

/-- ASCII model of `toLowerCase`. -/
def lowerStr (s : String) : String := String.mk (s.data.map Char.toLower)

/-- Truthiness of an optional string field. -/
def strTruthy : Option String → Bool
  | some s => s ≠ ""
  | none => false

/-- The chain `node.fullPath || node.originalSymbol || node.name`. -/
def searchTarget (t : TreeNode) : String :=
  if strTruthy t.fullPath then t.fullPath.getD ""
  else if strTruthy t.origSym then t.origSym.getD ""
  else t.name

/-- The category conjunct: `activeFilters.size === 0 ||
activeFilters.has(categorizeSymbol(node.originalSymbol))`. -/
def catOk (cats : List String) (t : TreeNode) : Bool :=
  cats.isEmpty || cats.contains (categorizeSymbol t.origSym)

/-- The search conjunct: `!searchTerm || target.toLowerCase()
.includes(searchTerm.toLowerCase())`. -/
def searchOk (term : String) (t : TreeNode) : Bool :=
  (term = "") || hasSub (lowerStr term) (lowerStr (searchTarget t)).data

/-- Model of `matchesFilters`. -/
def matchesFilters (minSize : Int) (cats : List String) (term : String)
    (t : TreeNode) : Bool :=
  if JsVal.jsLtNum t.size minSize then false
  else catOk cats t && searchOk term t

/-! ## Analysis definitions -/

mutual
/-- Sum of all own (pre-aggregation) sizes in a subtree, reading each
`num` and `0` for anything else (used under the all-numeric invariant). -/
def sumOwnZ : TreeNode → Int
  | .mk _ s cs _ _ _ => s.numOf + sumOwnZL cs
def sumOwnZL : TreeList → Int
  | .nil => 0
  | .cons t ts => sumOwnZ t + sumOwnZL ts
end

mutual
/-- Every size in the subtree is an actual number. -/
def allNumT : TreeNode → Bool
  | .mk _ s cs _ _ _ => s.isNum && allNumL cs
def allNumL : TreeList → Bool
  | .nil => true
  | .cons t ts => allNumT t && allNumL ts
end

mutual
/-- Does `p` hold of every node of the subtree? -/
def allNodesT (p : TreeNode → Bool) : TreeNode → Bool
  | .mk n s cs fp og i => p (.mk n s cs fp og i) && allNodesL p cs
def allNodesL (p : TreeNode → Bool) : TreeList → Bool
  | .nil => true
  | .cons t ts => allNodesT p t && allNodesL p ts
end

mutual
/-- Forget every size (for stating that a pass changes nothing else). -/
def stripSizes : TreeNode → TreeNode
  | .mk n _ cs fp og i => .mk n (.num 0) (stripSizesL cs) fp og i
def stripSizesL : TreeList → TreeList
  | .nil => .nil
  | .cons t ts => .cons (stripSizes t) (stripSizesL ts)
end

mutual
/-- Forget every instantiation counter (for stating that a pass changes
nothing else). -/
def stripCounts : TreeNode → TreeNode
  | .mk n s cs fp og _ => .mk n s (stripCountsL cs) fp og (.num 0)
def stripCountsL : TreeList → TreeList
  | .nil => .nil
  | .cons t ts => .cons (stripCounts t) (stripCountsL ts)
end

/-- Whether the insertion walk deposits the record's size anywhere: the
literal last part must be truthy (`i === parts.length - 1` is only
reached when that part is not skipped). -/
def addsB (parts : List String) : Bool :=
  match parts.getLast? with
  | some p => p ≠ ""
  | none => false

/-- A record contributes to the tree iff its name yields at least one
nonempty path segment. -/
def contribB (r : NormRow) : Bool :=
  match processSymbol r.symbols with
  | some ps => !(ps.filter (fun p => p ≠ "")).isEmpty
  | none => false

/-- Sum of the sizes of the contributing records. -/
def sumContrib (rs : List NormRow) : Int :=
  rs.foldr (fun r acc => (if contribB r then r.vmsize.numOf else 0) + acc) 0

/-- The size a row sorts by under the spec's reading: the numeric value,
with absent/zero-like values reading as `0`. -/
def sizeKey (r : NormRow) : Int :=
  (r.vmsize.toNum).getD 0

/-- Spec-side order for §4.1: strictly larger size first, ties by
ascending lexicographic symbol name. -/
def specLeB (a b : NormRow) : Bool :=
  decide (sizeKey b < sizeKey a) || (decide (sizeKey a = sizeKey b) && strLe a.symbols b.symbols)

/-- Pairwise sortedness for a boolean `≤`-style relation. -/
def pairSorted (le : α → α → Bool) : List α → Bool
  | [] => true
  | x :: xs => xs.all (le x) && pairSorted le xs

/-- Formalization of the claim's sort guarantee: descending by size
(absent/zero-like as `0`), ties by ascending lexicographic name. -/
def specSortedC8 (l : List NormRow) : Bool :=
  pairSorted specLeB l

/-- Spec-side statement of the §4.1 keep rule. -/
def keepB (r : RawRow) : Bool :=
  match r.symbols with
  | .str s => s ≠ "" && (!r.vmsize.truthy || r.vmsize.isNumType)
  | _ => false

/-- Formalization of the C2 claim on a built tree: every node whose
(transform-)stripped own name matches a leaf-group key carries that
group's member count. -/
def mergedClaimB (t : TreeNode) : Bool :=
  let gs := procList [] (.cons t .nil)
  allNodesT (fun n =>
    match gs.find? (fun g => g.gname = stripMergeT n.name) with
    | some g => decide (n.insts = JsVal.num g.gcount)
    | none => true) t

/-- JS `??` on an optional string against a string fallback. -/
def nullishStr (a : Option String) (b : String) : String :=
  match a with
  | some s => s
  | none => b

/-- JS `||` on an optional string against a string fallback. -/
def truthyOr (a : Option String) (b : String) : String :=
  match a with
  | some s => if s ≠ "" then s else b
  | none => b

/-- The filter predicate exactly as the C7 claim describes it:
category from `originalQualifiedName ?? segmentName`, search over
`originalQualifiedName ?? fullPathKey ?? segmentName`. -/
def matchesSpecC7 (minSize : Int) (cats : List String) (term : String)
    (t : TreeNode) : Bool :=
  (!JsVal.jsLtNum t.size minSize)
  && (cats.isEmpty || cats.contains (categorizeSymbol (some (nullishStr t.origSym t.name))))
  && ((term = "") ||
    hasSub (lowerStr term) (lowerStr (nullishStr t.origSym (nullishStr t.fullPath t.name))).data)

/-- The amended C7 description: three conjunctive conditions with the
code's actual fallbacks — category from `originalSymbol` alone, search
over the truthiness chain `fullPath || originalSymbol || name`. -/
def matchesAmendedC7 (minSize : Int) (cats : List String) (term : String)
    (t : TreeNode) : Bool :=
  (!JsVal.jsLtNum t.size minSize)
  && (cats.isEmpty || cats.contains (categorizeSymbol t.origSym))
  && ((term = "") ||
    hasSub (lowerStr term) (lowerStr (truthyOr t.fullPath (truthyOr t.origSym t.name))).data)

/-- The merge pass's annotation rule as the C9 claim states it: a node
whose stripped name keys a leaf group carries that group's member count,
every other node keeps its counter. -/
def newInstsOf (gs : List SymbolGroup) (n : TreeNode) : JsVal :=
  match gs.find? (fun g => g.gname = stripMergeT n.name) with
  | some g => JsVal.num g.gcount
  | none => n.insts

/-- An instantiation cell the collapser treats numerically: a number or
`undefined` (nullish-coalesced to `0`). -/
def instLike : JsVal → Bool
  | .num _ => true
  | .undef => true
  | _ => false

/-- The numeric reading of an instantiation cell. -/
def instN (v : JsVal) : Int :=
  (JsVal.jsNullish v (.num 0)).numOf

/-- Sum of the rows' sizes. -/
def sumVm (rs : List NormRow) : Int :=
  rs.foldr (fun r acc => r.vmsize.numOf + acc) 0

/-- Sum of the rows' numeric instantiation counts. -/
def sumInst (rs : List NormRow) : Int :=
  rs.foldr (fun r acc => instN r.instantiations + acc) 0

/-! Sanity checks of the end-to-end model on concrete inputs. -/

def rowsC2 : List RawRow :=
  [⟨.str "a.foo", .num 10, .num 0⟩, ⟨.str "b.foo", .num 20, .num 0⟩]

example : (processComplete rowsC2).map TreeNode.size = some (.num 30) := by decide
example :
    ((processComplete rowsC2).bind (fun t => nodeAt ["b", "foo"] t.children)).map TreeNode.insts
      = some (.num 0) := by decide
example :
    ((processComplete rowsC2).map (fun t =>
      (procList [] (.cons t .nil)).map (fun g => (g.gname, g.gcount))))
      = some [("foo", 2)] := by decide
example : (processComplete rowsC2).map mergedClaimB = some false := by decide

/-! ## C4: path segmentation -/

/-- C4 counterexample: the claim's third example fails on the code.
After `"const "` is stripped, the remainder starts with `"char*"`, so the
keyword loop also strips `"char* "` (the `startsWith("char*")` test does
not require a following space), leaving `"foo.bar"`; the dot split then
yields `["foo","bar"]`, not the claimed `["char* foo","bar"]`. -/
theorem c4_counterexample :
    processSymbol "const char* foo.bar" ≠ some ["char* foo", "bar"]
    ∧ processSymbol "const char* foo.bar" = some ["foo", "bar"] := by
  decide

/-- C4 amended: keyword stripping (with `"void*"`/`"char*"` stripped up
to the first space even when the space is not immediately after the
keyword), then the bracket / dot / double-colon / whole-name strategies
in priority order; `"Namespace::Class::method"` and `"[vtable for X]"`
segment as claimed, while `"const char* foo.bar"` segments to
`["foo","bar"]`. -/
theorem c4_amended :
    stripKeywords "const char* foo.bar".data = some "foo.bar".data
    ∧ processSymbol "Namespace::Class::method" = some ["Namespace", "Class", "method"]
    ∧ processSymbol "[vtable for X]" = some ["[vtable for X]"]
    ∧ processSymbol "const char* foo.bar" = some ["foo", "bar"] := by
  decide

/-! ## C10: termination of the keyword-stripping loop -/

/-- C10: the keyword-stripping loop does not terminate on every input.
On `"void*x"` the guard holds (`startsWith("void*")`) but the string has
no space, so `symbol.slice(symbol.indexOf(" ") + 1)` is `slice(0)` and
leaves the string unchanged: the loop body is the identity and the guard
keeps holding, so no amount of fuel makes the loop exit and
`processSymbol` diverges. -/
theorem c10_divergence :
    (∀ fuel : Nat, stripGo fuel "void*x".data = none)
    ∧ processSymbol "void*x" = none := by
  have hd : "void*x".data = ['v', 'o', 'i', 'd', '*', 'x'] := rfl
  have hstep : ∀ fuel : Nat, stripGo fuel "void*x".data = none := by
    intro fuel
    rw [hd]
    induction fuel with
    | zero => rfl
    | succ n ih =>
      have hg : kwGuard ['v', 'o', 'i', 'd', '*', 'x'] = true := by decide
      have hs : stripStep ['v', 'o', 'i', 'd', '*', 'x'] = ['v', 'o', 'i', 'd', '*', 'x'] := by
        decide
      simp only [stripGo, hg, if_true, hs, ih]
  refine ⟨hstep, ?_⟩
  have hk : stripKeywords "void*x".data = none := by rw [stripKeywords, hstep]
  unfold processSymbol
  rw [hk]

/-! ## C5: classification -/

/-- C5: `categorizeSymbol` is total and deterministic by construction;
absent input yields `"Other"`; the SYS-V, Rust, C++, Zig pattern groups
are tried in that order with first match winning and `"Other"` as the
default; and the claim's five examples evaluate as stated. -/
theorem c5_classification :
    categorizeSymbol none = "Other"
    ∧ (∀ s, sysvB s.data = true → categorizeSymbol (some s) = "SYS-V")
    ∧ (∀ s, sysvB s.data = false → rustB s.data = true →
        categorizeSymbol (some s) = "Rust")
    ∧ (∀ s, sysvB s.data = false → rustB s.data = false → cppB s.data = true →
        categorizeSymbol (some s) = "C++")
    ∧ (∀ s, sysvB s.data = false → rustB s.data = false → cppB s.data = false →
        zigB s.data = true → categorizeSymbol (some s) = "Zig")
    ∧ (∀ s, sysvB s.data = false → rustB s.data = false → cppB s.data = false →
        zigB s.data = false → categorizeSymbol (some s) = "Other")
    ∧ categorizeSymbol (some "Namespace::Class::method") = "C++"
    ∧ categorizeSymbol (some "alloc::h0123456789abcdef") = "Rust"
    ∧ categorizeSymbol (some "[anon_symbol]") = "SYS-V"
    ∧ categorizeSymbol (some "foo.bar") = "Zig" := by
  refine ⟨rfl, ?_, ?_, ?_, ?_, ?_, by decide, by decide, by decide, by decide⟩
  · intro s h1
    by_cases hs : s = ""
    · subst hs; exact absurd h1 (by decide)
    · simp [categorizeSymbol, hs, categorizeStr, h1]
  · intro s h1 h2
    by_cases hs : s = ""
    · subst hs; exact absurd h2 (by decide)
    · simp [categorizeSymbol, hs, categorizeStr, h1, h2]
  · intro s h1 h2 h3
    by_cases hs : s = ""
    · subst hs; exact absurd h3 (by decide)
    · simp [categorizeSymbol, hs, categorizeStr, h1, h2, h3]
  · intro s h1 h2 h3 h4
    by_cases hs : s = ""
    · subst hs; exact absurd h4 (by decide)
    · simp [categorizeSymbol, hs, categorizeStr, h1, h2, h3, h4]
  · intro s h1 h2 h3 h4
    by_cases hs : s = ""
    · subst hs; simp [categorizeSymbol]
    · simp [categorizeSymbol, hs, categorizeStr, h1, h2, h3, h4]

/-- C5 witness: the ladder conjuncts applied at concrete names. -/
theorem c5_classification_witness :
    categorizeSymbol (some "[w]") = "SYS-V" ∧ categorizeSymbol (some "w.x") = "Zig" := by
  exact ⟨c5_classification.2.1 "[w]" (by decide),
    c5_classification.2.2.2.2.1 "w.x" (by decide) (by decide) (by decide) (by decide)⟩

/-! ## C6 and C7: the filter predicate -/

/-- C6: the filter is the conjunction of its three conditions: a node
whose size is below `minSize` is rejected regardless of the category and
search state; with an empty category set the predicate reduces to the
size and search conditions; with an empty search term it reduces to the
size and category conditions. -/
theorem c6_filter_composition :
    ∀ (t : TreeNode) (ms : Int) (cats : List String) (term : String),
      (JsVal.jsLtNum t.size ms = true → matchesFilters ms cats term t = false)
      ∧ (cats = [] →
          matchesFilters ms cats term t = (!JsVal.jsLtNum t.size ms && searchOk term t))
      ∧ (term = "" →
          matchesFilters ms cats term t = (!JsVal.jsLtNum t.size ms && catOk cats t)) := by
  intro t ms cats term
  refine ⟨fun h => by simp [matchesFilters, h], fun h => ?_, fun h => ?_⟩
  · subst h
    by_cases hlt : JsVal.jsLtNum t.size ms = true
    · simp [matchesFilters, hlt]
    · simp [matchesFilters, hlt, catOk]
  · subst h
    by_cases hlt : JsVal.jsLtNum t.size ms = true
    · simp [matchesFilters, hlt]
    · simp [matchesFilters, hlt, searchOk]

/-- A filter witness node: a leaf named `w` whose original symbol is
`w.x`. -/
def nodeW6 : TreeNode := .mk "w" (.num 5) .nil none (some "w.x") (.num 0)

/-- C6 witness: the three conjuncts applied at concrete filter states. -/
theorem c6_filter_composition_witness :
    matchesFilters 10 ["Rust"] "zzz" nodeW6 = false
    ∧ matchesFilters 1 [] "w" nodeW6 = true
    ∧ matchesFilters 1 ["Zig"] "" nodeW6 = true := by
  refine ⟨(c6_filter_composition nodeW6 10 ["Rust"] "zzz").1 (by decide), ?_, ?_⟩
  · rw [(c6_filter_composition nodeW6 1 [] "w").2.1 rfl]; decide
  · rw [(c6_filter_composition nodeW6 1 ["Zig"] "").2.2 rfl]; decide

/-- The search target is the truthiness chain
`fullPath || originalSymbol || name`. -/
theorem searchTarget_eq (t : TreeNode) :
    searchTarget t = truthyOr t.fullPath (truthyOr t.origSym t.name) := by
  cases t with
  | mk n s cs fp og i =>
    cases fp <;> cases og <;>
      simp [searchTarget, truthyOr, strTruthy, TreeNode.fullPath, TreeNode.origSym,
        TreeNode.name]

/-- A node distinguishing the code's filter from the claim's fallback
order: no original symbol, Zig-shaped segment name, truthy full path. -/
def nodeC7 : TreeNode := .mk "a.b" (.num 100) .nil (some "x") none (.num 0)

/-- C7 counterexample: the code classifies `node.originalSymbol` with no
fallback and searches `fullPath || originalSymbol || name`, so on a node
with an absent original symbol and a Zig-shaped name the code rejects
under the `Zig` category filter while the claim's
`classify(original ?? segmentName)` accepts. -/
theorem c7_counterexample :
    matchesFilters 0 ["Zig"] "" nodeC7 = false
    ∧ matchesSpecC7 0 ["Zig"] "" nodeC7 = true := by
  decide

/-- C7 amended: the filter is the conjunction of the three conditions
with the code's fallbacks: the category condition classifies
`node.originalSymbol` alone (an absent original symbol classifies as
`Other`), and the search condition tests the lowered term against the
first truthy of `fullPath`, `originalSymbol`, `segmentName`. -/
theorem c7_amended :
    ∀ (ms : Int) (cats : List String) (term : String) (t : TreeNode),
      matchesFilters ms cats term t = matchesAmendedC7 ms cats term t := by
  intro ms cats term t
  by_cases hlt : JsVal.jsLtNum t.size ms = true
  · simp [matchesFilters, matchesAmendedC7, hlt]
  · simp [matchesFilters, matchesAmendedC7, hlt, catOk, searchOk, searchTarget_eq,
      Bool.and_assoc]

/-! ## C2: the build pipeline and the variant-merge pass -/

/-- C2 counterexample: on `[{"a.foo",10,0},{"b.foo",20,0}]` the build
succeeds and returns a tree with two leaves named `foo`, which form a
leaf group keyed `"foo"` with member count `2`; yet the node at
`b → foo` carries instantiation count `0`, so the returned hierarchy has
not had the variant-merge annotation applied (`mergeInstantiations` is
defined in the source but never invoked by the complete handler). -/
theorem c2_counterexample :
    (processComplete rowsC2).isSome = true
    ∧ (processComplete rowsC2).map mergedClaimB = some false
    ∧ ((processComplete rowsC2).bind
        (fun t => nodeAt ["b", "foo"] t.children)).map TreeNode.insts = some (.num 0)
    ∧ (processComplete rowsC2).map
        (fun t => (procList [] (.cons t .nil)).map (fun g => (g.gname, g.gcount)))
        = some [("foo", 2)] := by
  decide

mutual
/-- Aggregation changes only sizes: node version. -/
theorem stripSizes_calc : ∀ t : TreeNode, stripSizes (calcTree t) = stripSizes t
  | .mk n s cs fp og i => by
    simp only [calcTree, stripSizes, stripSizesL_calc cs]
/-- Aggregation changes only sizes: forest version. -/
theorem stripSizesL_calc : ∀ ts : TreeList, stripSizesL (calcTreeL ts) = stripSizesL ts
  | .nil => rfl
  | .cons t ts => by
    simp only [calcTreeL, stripSizesL, stripSizes_calc t, stripSizesL_calc ts]
end

/-- C2 amended: the complete handler performs §4.1–§4.4 only.  Modulo
sizes (the only thing the final aggregation pass changes), the returned
hierarchy is exactly the tree as insertion left it: every segment name,
identity field, child list and instantiation count is the
insertion-time one, and no variant-merge annotation is applied. -/
theorem c2_amended :
    ∀ rows : List RawRow,
      (processComplete rows).map stripSizes
        = (buildRoot (dedupRecords (normalizeRows rows))).map stripSizes := by
  intro rows
  unfold processComplete
  cases buildRoot (dedupRecords (normalizeRows rows)) with
  | none => rfl
  | some t => simp [stripSizes_calc t]

/-! ## C3: instantiation collapsing -/

/-- Numeric addition under `jsAdd`. -/
theorem jsAdd_num (a b : Int) : JsVal.jsAdd (.num a) (.num b) = .num (a + b) := rfl

/-- A numeric-or-undefined instantiation cell nullish-coalesces to its
numeric reading. -/
theorem instLike_nullish {v : JsVal} (h : instLike v = true) :
    JsVal.jsNullish v (.num 0) = .num (instN v) := by
  cases v <;> simp_all [instLike, instN, JsVal.jsNullish, JsVal.numOf]

/-- Merging a uniform batch of rows into a single existing map entry:
each merged row adds its size and its count plus one. -/
theorem dedupGo_single (nm : String) :
    ∀ (rs : List NormRow) (s i : Int),
      (∀ r ∈ rs, stripFull r.symbols = nm) →
      (∀ r ∈ rs, r.vmsize.isNum = true) →
      (∀ r ∈ rs, instLike r.instantiations = true) →
      dedupGo [⟨nm, .num s, .num i⟩] rs
        = [⟨nm, .num (s + sumVm rs), .num (i + sumInst rs + rs.length)⟩]
  | [], s, i, _, _, _ => by simp [dedupGo, sumVm, sumInst]
  | r :: rs, s, i, hstrip, hnum, hinst => by
    have hs : stripFull r.symbols = nm := hstrip r (List.mem_cons_self r rs)
    obtain ⟨v, hv⟩ : ∃ v, r.vmsize = .num v := by
      have := hnum r (List.mem_cons_self r rs)
      cases hr : r.vmsize <;> simp_all [JsVal.isNum]
    have hi : JsVal.jsNullish r.instantiations (.num 0) = .num (instN r.instantiations) :=
      instLike_nullish (hinst r (List.mem_cons_self r rs))
    have step : dedupGo [⟨nm, .num s, .num i⟩] (r :: rs)
        = dedupGo [⟨nm, .num (s + v), .num (i + (instN r.instantiations + 1))⟩] rs := by
      simp [dedupGo, hs, updRow, hv, hi, jsAdd_num]
    rw [step, dedupGo_single nm rs _ _
      (fun x hx => hstrip x (List.mem_cons_of_mem r hx))
      (fun x hx => hnum x (List.mem_cons_of_mem r hx))
      (fun x hx => hinst x (List.mem_cons_of_mem r hx))]
    simp [sumVm, sumInst, hv, JsVal.numOf]
    constructor <;> ring

/-- C3 amended: rows that all strip to the same nonempty canonical name
`nm` (other than the special-cased `"_"`, and with numeric sizes and
numeric-or-absent counts) collapse to exactly one record named `nm`,
with sizes summed, and with the instantiation counts summed plus one per
merged row beyond the first — the first row contributes no `+1`, so `k`
rows with zero counts produce counter `k - 1`, not `k`. -/
theorem c3_amended :
    ∀ (nm : String) (r : NormRow) (rs : List NormRow),
      (∀ x ∈ r :: rs, stripFull x.symbols = nm) →
      nm ≠ "" → nm ≠ "_" →
      (∀ x ∈ r :: rs, x.vmsize.isNum = true) →
      (∀ x ∈ r :: rs, instLike x.instantiations = true) →
      dedupRecords (r :: rs)
        = [⟨nm, .num (sumVm (r :: rs)), .num (sumInst (r :: rs) + rs.length)⟩] := by
  intro nm r rs hstrip _hne hnu hnum hinst
  have hs : stripFull r.symbols = nm := hstrip r (List.mem_cons_self r rs)
  obtain ⟨v, hv⟩ : ∃ v, r.vmsize = .num v := by
    have := hnum r (List.mem_cons_self r rs)
    cases hr : r.vmsize <;> simp_all [JsVal.isNum]
  have hi : JsVal.jsNullish r.instantiations (.num 0) = .num (instN r.instantiations) :=
    instLike_nullish (hinst r (List.mem_cons_self r rs))
  have first : dedupRecords (r :: rs)
      = dedupGo [⟨nm, .num v, .num (instN r.instantiations)⟩] rs := by
    simp [dedupRecords, dedupGo, mapSet, hs, hnu, hv, hi]
  rw [first, dedupGo_single nm rs _ _
    (fun x hx => hstrip x (List.mem_cons_of_mem r hx))
    (fun x hx => hnum x (List.mem_cons_of_mem r hx))
    (fun x hx => hinst x (List.mem_cons_of_mem r hx))]
  simp [sumVm, sumInst, hv, JsVal.numOf]

/-- The claim's two rows, in the descending-size order the normalizer
hands them to the collapser. -/
def rowsC3 : List NormRow :=
  [⟨"foo__anon_2", .num 20, .num 0⟩, ⟨"foo__anon_1", .num 10, .num 0⟩]

/-- C3 counterexample: the two claimed rows collapse (in either order)
to `{foo, 30, 1}`, not the claimed `{foo, 30, 2}`: only rows merged into
an existing entry receive the `+1`, the first row does not. -/
theorem c3_counterexample :
    dedupRecords rowsC3 = [⟨"foo", .num 30, .num 1⟩]
    ∧ dedupRecords rowsC3 ≠ [⟨"foo", .num 30, .num 2⟩]
    ∧ dedupRecords [⟨"foo__anon_1", .num 10, .num 0⟩, ⟨"foo__anon_2", .num 20, .num 0⟩]
        = [⟨"foo", .num 30, .num 1⟩] := by
  decide

/-- C3 witness: the amended theorem applied to the claim's two rows. -/
theorem c3_amended_witness :
    dedupRecords rowsC3 = [⟨"foo", .num 30, .num 1⟩] := by
  have h := c3_amended "foo" ⟨"foo__anon_2", .num 20, .num 0⟩
    [⟨"foo__anon_1", .num 10, .num 0⟩]
    (by decide) (by decide) (by decide) (by decide) (by decide)
  exact h.trans (by decide)

/-! ## C9: the merge pass is a pure annotation of counters -/

/-- The transform keeps the segment name. -/
theorem transformNode_name (gs : List SymbolGroup) (t : TreeNode) :
    (transformNode gs t).name = t.name := by
  cases t; rfl

/-- The transform keeps the size. -/
theorem transformNode_size (gs : List SymbolGroup) (t : TreeNode) :
    (transformNode gs t).size = t.size := by
  cases t; rfl

/-- The transform rebuilds the children by transforming them in place. -/
theorem transformNode_children (gs : List SymbolGroup) (t : TreeNode) :
    (transformNode gs t).children = transformList gs t.children := by
  cases t; rfl

/-- The counter written by `transformNode`:
`group?.count || node.instantiations`. -/
theorem transformNode_insts (gs : List SymbolGroup) (t : TreeNode) :
    (transformNode gs t).insts =
      (match gs.find? (fun g => g.gname = stripMergeT t.name) with
       | some g => if g.gcount ≠ 0 then JsVal.num g.gcount else t.insts
       | none => t.insts) := by
  cases t; rfl

/-- Membership in an in-place group update. -/
theorem mem_updFirstGroup {base : String} {f : SymbolGroup → SymbolGroup} :
    ∀ (gs : List SymbolGroup) (g : SymbolGroup),
      g ∈ updFirstGroup base f gs → g ∈ gs ∨ ∃ x ∈ gs, g = f x
  | [], g, h => by simp [updFirstGroup] at h
  | x :: xs, g, h => by
    by_cases hx : x.gname = base
    · simp only [updFirstGroup, hx, if_true] at h
      rcases List.mem_cons.1 h with h | h
      · exact Or.inr ⟨x, List.mem_cons_self x xs, h⟩
      · exact Or.inl (List.mem_cons_of_mem x h)
    · simp only [updFirstGroup, hx, if_false] at h
      rcases List.mem_cons.1 h with h | h
      · exact Or.inl (h ▸ List.mem_cons_self x xs)
      · rcases mem_updFirstGroup xs g h with h' | ⟨y, hy, hgy⟩
        · exact Or.inl (List.mem_cons_of_mem x h')
        · exact Or.inr ⟨y, List.mem_cons_of_mem x hy, hgy⟩

/-- Every group a leaf joins has member count at least one. -/
theorem groupAdd_pos {gs : List SymbolGroup} {base : String} {nsize : JsVal}
    {norig : Option String} (hgs : ∀ g ∈ gs, 1 ≤ g.gcount) :
    ∀ g ∈ groupAdd gs base nsize norig, 1 ≤ g.gcount := by
  intro g hg
  unfold groupAdd at hg
  split at hg
  · rcases mem_updFirstGroup _ _ hg with h | ⟨x, hx, hgx⟩
    · exact hgs g h
    · have := hgs x hx
      subst hgx
      simp only [updGroup]
      omega
  · rcases List.mem_append.1 hg with h | h
    · exact hgs g h
    · rcases List.mem_singleton.1 h with rfl
      simp [updGroup]

mutual
/-- Group counts stay positive through the leaf traversal (node case). -/
theorem procNode_pos : ∀ (gs : List SymbolGroup) (t : TreeNode),
    (∀ g ∈ gs, 1 ≤ g.gcount) → ∀ g ∈ procNode gs t, 1 ≤ g.gcount
  | gs, .mk n s cs fp og i, hgs => by
    simp only [procNode]
    apply procList_pos _ cs
    split
    · split
      · exact groupAdd_pos hgs
      · exact hgs
    · exact hgs
/-- Group counts stay positive through the leaf traversal (forest case). -/
theorem procList_pos : ∀ (gs : List SymbolGroup) (ts : TreeList),
    (∀ g ∈ gs, 1 ≤ g.gcount) → ∀ g ∈ procList gs ts, 1 ≤ g.gcount
  | gs, .nil, hgs => hgs
  | gs, .cons t ts, hgs => by
    simp only [procList]
    exact procList_pos _ ts (procNode_pos gs t hgs)
end

/-- Child lookup commutes with the annotation pass. -/
theorem findName_transform (gs : List SymbolGroup) (p : String) :
    ∀ ts : TreeList, findName p (transformList gs ts) = (findName p ts).map (transformNode gs)
  | .nil => rfl
  | .cons t ts => by
    simp only [transformList, findName, transformNode_name]
    by_cases h : t.name = p
    · simp [h]
    · simp [h, findName_transform gs p ts]

/-- Path lookup commutes with the annotation pass. -/
theorem nodeAt_transform (gs : List SymbolGroup) :
    ∀ (p : List String) (ts : TreeList),
      nodeAt p (transformList gs ts) = (nodeAt p ts).map (transformNode gs)
  | [], _ => rfl
  | [q], ts => by simp [nodeAt, findName_transform]
  | q :: q' :: p, ts => by
    simp only [nodeAt, findName_transform]
    cases findName q ts with
    | none => rfl
    | some t =>
      simp [transformNode_children, nodeAt_transform gs (q' :: p) t.children]

mutual
/-- Forgetting counters, the annotation pass is the identity (node). -/
theorem stripCounts_transform : ∀ (gs : List SymbolGroup) (t : TreeNode),
    stripCounts (transformNode gs t) = stripCounts t
  | gs, .mk n s cs fp og i => by
    simp only [transformNode, stripCounts, stripCountsL_transform gs cs]
/-- Forgetting counters, the annotation pass is the identity (forest). -/
theorem stripCountsL_transform : ∀ (gs : List SymbolGroup) (ts : TreeList),
    stripCountsL (transformList gs ts) = stripCountsL ts
  | _, .nil => rfl
  | gs, .cons t ts => by
    simp only [transformList, stripCountsL, stripCounts_transform gs t,
      stripCountsL_transform gs ts]
end

/-- C9: the merge pass never deletes, merges or reparents a node — with
counters forgotten it is the identity, so names, sizes, identity fields
and child lists are unchanged at every position — and at every path the
surviving node carries the group's member count when its stripped name
keys a leaf group, and its previous counter otherwise. -/
theorem c9_frame :
    ∀ ts : TreeList,
      stripCountsL (mergeInstantiations ts) = stripCountsL ts
      ∧ ∀ p : List String,
          (nodeAt p (mergeInstantiations ts)).map (fun n => (n.name, n.size, n.insts))
            = (nodeAt p ts).map (fun n => (n.name, n.size, newInstsOf (procList [] ts) n)) := by
  intro ts
  refine ⟨stripCountsL_transform _ ts, fun p => ?_⟩
  rw [mergeInstantiations, nodeAt_transform]
  cases h : nodeAt p ts with
  | none => rfl
  | some n =>
    simp only [Option.map_some']
    have hinsts : (transformNode (procList [] ts) n).insts = newInstsOf (procList [] ts) n := by
      rw [transformNode_insts]
      unfold newInstsOf
      cases hf : (procList [] ts).find? (fun g => g.gname = stripMergeT n.name) with
      | none => rfl
      | some g =>
        have hg : g ∈ procList [] ts := List.mem_of_find?_eq_some hf
        have hpos : 1 ≤ g.gcount :=
          procList_pos [] ts (fun x hx => absurd hx (List.not_mem_nil x)) g hg
        simp [show g.gcount ≠ 0 by omega]
    rw [transformNode_name, transformNode_size, hinsts]

/-! ## C8: row normalization -/

/-- Inserting into a sorted list permutes a cons. -/
theorem insertSorted_perm (le : α → α → Bool) (x : α) :
    ∀ l : List α, (insertSorted le x l).Perm (x :: l)
  | [] => List.Perm.refl _
  | y :: ys => by
    unfold insertSorted
    split
    · exact List.Perm.refl _
    · exact (List.Perm.cons y (insertSorted_perm le x ys)).trans (List.Perm.swap x y ys)

/-- The stable sort is a permutation of its input. -/
theorem stableSort_perm (le : α → α → Bool) :
    ∀ l : List α, (stableSort le l).Perm l
  | [] => List.Perm.refl _
  | x :: xs =>
    (insertSorted_perm le x (stableSort le xs)).trans
      (List.Perm.cons x (stableSort_perm le xs))

/-- Insertion preserves pairwise sortedness, for a relation total and
transitive on the elements at hand. -/
theorem pairSorted_insertSorted (le : α → α → Bool) (P : α → Bool)
    (htot : ∀ a b, P a = true → P b = true → (le a b || le b a) = true)
    (htrans : ∀ a b c, P a = true → P b = true → P c = true →
      le a b = true → le b c = true → le a c = true) :
    ∀ (l : List α) (x : α), P x = true → (∀ y ∈ l, P y = true) →
      pairSorted le l = true → pairSorted le (insertSorted le x l) = true
  | [], x, _, _, _ => by simp [insertSorted, pairSorted]
  | y :: ys, x, hx, hl, hs => by
    have hy : P y = true := hl y (List.mem_cons_self y ys)
    have hys : ∀ z ∈ ys, P z = true := fun z hz => hl z (List.mem_cons_of_mem y hz)
    rw [pairSorted, Bool.and_eq_true, List.all_eq_true] at hs
    obtain ⟨hally, hsy⟩ := hs
    by_cases hxy : le x y = true
    · simp only [insertSorted, hxy, if_true]
      rw [pairSorted, Bool.and_eq_true, List.all_eq_true]
      refine ⟨fun z hz => ?_, ?_⟩
      · rcases List.mem_cons.1 hz with rfl | hz
        · exact hxy
        · exact htrans x y z hx hy (hys z hz) hxy (hally z hz)
      · rw [pairSorted, Bool.and_eq_true, List.all_eq_true]
        exact ⟨hally, hsy⟩
    · have hyx : le y x = true := by
        rcases Bool.or_eq_true_iff.1 (htot x y hx hy) with h | h
        · exact absurd h hxy
        · exact h
      rw [insertSorted, if_neg hxy]
      rw [pairSorted, Bool.and_eq_true, List.all_eq_true]
      refine ⟨fun z hz => ?_, ?_⟩
      · rcases List.mem_cons.1 ((insertSorted_perm le x ys).mem_iff.1 hz) with rfl | hz'
        · exact hyx
        · exact hally z hz'
      · exact pairSorted_insertSorted le P htot htrans ys x hx hys hsy

/-- The stable sort sorts, for a relation total and transitive on the
elements at hand. -/
theorem pairSorted_stableSort (le : α → α → Bool) (P : α → Bool)
    (htot : ∀ a b, P a = true → P b = true → (le a b || le b a) = true)
    (htrans : ∀ a b c, P a = true → P b = true → P c = true →
      le a b = true → le b c = true → le a c = true) :
    ∀ l : List α, (∀ y ∈ l, P y = true) → pairSorted le (stableSort le l) = true
  | [], _ => rfl
  | x :: xs, hl => by
    have hx : P x = true := hl x (List.mem_cons_self x xs)
    have hxs : ∀ y ∈ xs, P y = true := fun y hy => hl y (List.mem_cons_of_mem x hy)
    have hmem : ∀ y ∈ stableSort le xs, P y = true :=
      fun y hy => hxs y ((stableSort_perm le xs).mem_iff.1 hy)
    exact pairSorted_insertSorted le P htot htrans (stableSort le xs) x hx hmem
      (pairSorted_stableSort le P htot htrans xs hxs)

/-- Pairwise sortedness only inspects pairs from the list. -/
theorem pairSorted_congr (le1 le2 : α → α → Bool) :
    ∀ l : List α, (∀ a ∈ l, ∀ b ∈ l, le1 a b = le2 a b) →
      pairSorted le1 l = pairSorted le2 l
  | [], _ => rfl
  | x :: xs, h => by
    rw [pairSorted, pairSorted,
      pairSorted_congr le1 le2 xs
        (fun a ha b hb => h a (List.mem_cons_of_mem x ha) b (List.mem_cons_of_mem x hb))]
    have hall : ∀ ys : List α, (∀ b ∈ ys, le1 x b = le2 x b) →
        ys.all (le1 x) = ys.all (le2 x) := by
      intro ys hys
      induction ys with
      | nil => rfl
      | cons b bs ih =>
        rw [List.all_cons, List.all_cons, hys b (List.mem_cons_self b bs),
          ih (fun c hc => hys c (List.mem_cons_of_mem b hc))]
    rw [hall xs (fun b hb => h x (List.mem_cons_self x xs) b (List.mem_cons_of_mem x hb))]

/-- Lexicographic comparison is asymmetric. -/
theorem listLt_asymm : ∀ a b : List Char, listLt a b = true → listLt b a = false
  | [], [], h => by simp [listLt] at h
  | [], _ :: _, _ => by simp [listLt]
  | _ :: _, [], h => by simp [listLt] at h
  | c :: cs, d :: ds, h => by
    simp only [listLt] at h ⊢
    by_cases h1 : c.toNat < d.toNat
    · simp [h1, show ¬ d.toNat < c.toNat by omega]
    · by_cases h2 : d.toNat < c.toNat
      · simp [h1, h2] at h
      · simp only [h1, h2, if_false] at h ⊢
        exact listLt_asymm cs ds h

/-- Lexicographic comparison is transitive. -/
theorem listLt_trans : ∀ a b c : List Char,
    listLt a b = true → listLt b c = true → listLt a c = true
  | [], [], _, h1, _ => by simp [listLt] at h1
  | [], _ :: _, [], _, h2 => by simp [listLt] at h2
  | [], _ :: _, _ :: _, _, _ => by simp [listLt]
  | _ :: _, [], _, h1, _ => by simp [listLt] at h1
  | _ :: _, _ :: _, [], _, h2 => by simp [listLt] at h2
  | x :: xs, y :: ys, z :: zs, h1, h2 => by
    simp only [listLt] at h1 h2 ⊢
    by_cases hxy : x.toNat < y.toNat
    · by_cases hyz : y.toNat < z.toNat
      · simp [show x.toNat < z.toNat by omega]
      · by_cases hzy : z.toNat < y.toNat
        · simp [hyz, hzy] at h2
        · simp [show x.toNat < z.toNat by omega]
    · by_cases hyx : y.toNat < x.toNat
      · simp [hxy, hyx] at h1
      · have hxe : x.toNat = y.toNat := by omega
        simp only [hxy, hyx, if_false] at h1
        by_cases hyz : y.toNat < z.toNat
        · simp [show x.toNat < z.toNat by omega]
        · by_cases hzy : z.toNat < y.toNat
          · simp [hyz, hzy] at h2
          · simp only [hyz, hzy, if_false] at h2
            simp [show ¬ x.toNat < z.toNat by omega, show ¬ z.toNat < x.toNat by omega,
              listLt_trans xs ys zs h1 h2]

/-- Two lists neither of which lexicographically precedes the other
compare identically against every third list. -/
theorem listLt_congr : ∀ a b : List Char,
    listLt a b = false → listLt b a = false →
    ∀ x : List Char, listLt x a = listLt x b ∧ listLt a x = listLt b x
  | [], [], _, _, _ => ⟨rfl, rfl⟩
  | [], _ :: _, h1, _, _ => by simp [listLt] at h1
  | _ :: _, [], _, h2, _ => by simp [listLt] at h2
  | c :: cs, d :: ds, h1, h2, x => by
    simp only [listLt] at h1 h2
    by_cases hcd : c.toNat < d.toNat
    · simp [hcd] at h1
    · by_cases hdc : d.toNat < c.toNat
      · simp [hcd, hdc] at h2
      · simp only [hcd, hdc, if_false] at h1 h2
        have hce : c.toNat = d.toNat := by omega
        cases x with
        | nil => simp [listLt]
        | cons e es =>
          have ih := listLt_congr cs ds h1 h2 es
          constructor
          · simp only [listLt, hce, ih.1]
          · simp only [listLt, hce, ih.2]

/-- Totality of `strLe`. -/
theorem strLe_total (a b : String) : (strLe a b || strLe b a) = true := by
  unfold strLe
  by_cases h : listLt b.data a.data = true
  · simp [listLt_asymm _ _ h]
  · simp [Bool.not_eq_true] at h
    simp [h]

/-- Transitivity of `strLe`. -/
theorem strLe_trans {a b c : String}
    (h1 : strLe a b = true) (h2 : strLe b c = true) : strLe a c = true := by
  unfold strLe at h1 h2 ⊢
  simp only [Bool.not_eq_true'] at h1 h2 ⊢
  by_cases hca : listLt c.data a.data = true
  · by_cases hbc : listLt b.data c.data = true
    · rw [listLt_trans _ _ _ hbc hca] at h1
      cases h1
    · have hbc' : listLt b.data c.data = false := by simpa using hbc
      have heq := (listLt_congr b.data c.data hbc' h2 a.data).2
      rw [← heq] at hca
      rw [hca] at h1
      cases h1
  · simpa using hca

/-- On rows with actual numeric sizes the code's comparator agrees with
the spec-side order (larger size first, ties by name). -/
theorem rowBefore_num {a b : NormRow} (ha : a.vmsize.isNum = true)
    (hb : b.vmsize.isNum = true) : rowBefore a b = specLeB a b := by
  obtain ⟨na, hna⟩ : ∃ n, a.vmsize = .num n := by
    cases h : a.vmsize <;> simp_all [JsVal.isNum]
  obtain ⟨nb, hnb⟩ : ∃ n, b.vmsize = .num n := by
    cases h : b.vmsize <;> simp_all [JsVal.isNum]
  unfold rowBefore specLeB sizeKey
  rw [hna, hnb]
  simp only [JsVal.jsEq, JsVal.jsSub, JsVal.toNum, Option.getD_some]
  by_cases he : nb = na
  · subst he
    simp
  · have he' : ¬ na = nb := fun h => he h.symm
    rw [show (decide (nb - na ≤ 0)) = (decide (nb < na)) from
      decide_eq_decide.2 (by omega)]
    simp [he, he']

/-- The comparator is total on numeric rows. -/
theorem rowBefore_total {a b : NormRow} (ha : a.vmsize.isNum = true)
    (hb : b.vmsize.isNum = true) : (rowBefore a b || rowBefore b a) = true := by
  rw [rowBefore_num ha hb, rowBefore_num hb ha]
  unfold specLeB
  by_cases h : sizeKey a = sizeKey b
  · have ht := strLe_total a.symbols b.symbols
    rcases Bool.or_eq_true_iff.1 ht with h' | h' <;> simp [h, h']
  · rcases lt_or_gt_of_ne h with h' | h'
    · simp [h']
    · simp [h']

/-- The comparator is transitive on numeric rows. -/
theorem rowBefore_trans {a b c : NormRow} (ha : a.vmsize.isNum = true)
    (hb : b.vmsize.isNum = true) (hc : c.vmsize.isNum = true)
    (h1 : rowBefore a b = true) (h2 : rowBefore b c = true) :
    rowBefore a c = true := by
  rw [rowBefore_num ha hb] at h1
  rw [rowBefore_num hb hc] at h2
  rw [rowBefore_num ha hc]
  unfold specLeB at h1 h2 ⊢
  simp only [Bool.or_eq_true, Bool.and_eq_true, decide_eq_true_eq] at h1 h2 ⊢
  rcases h1 with h1 | ⟨h1e, h1s⟩ <;> rcases h2 with h2 | ⟨h2e, h2s⟩
  · exact Or.inl (by omega)
  · exact Or.inl (by omega)
  · exact Or.inl (by omega)
  · exact Or.inr ⟨by omega, strLe_trans h1s h2s⟩

/-- C8 counterexample: a kept row with a present numeric `0` size and a
kept row with an absent size are both "zero-like" under the claim, so
the claim orders them by name; but the code's comparator sees
`undefined === 0` false and `undefined - 0` NaN, treats the pair as
equal, and the stable sort keeps input order: `b` stays before `a`. -/
theorem c8_counterexample :
    specSortedC8 (normalizeRows
      [⟨.str "b", .num 0, .num 0⟩, ⟨.str "a", .undef, .num 0⟩]) = false
    ∧ (normalizeRows [⟨.str "b", .num 0, .num 0⟩, ⟨.str "a", .undef, .num 0⟩]).map
        NormRow.symbols = ["b", "a"] := by
  decide

/-- C8 amended: the normalizer keeps exactly the rows with a truthy
textual `symbols` whose `vmsize` is falsy or number-typed, and outputs a
permutation of the kept rows; whenever every kept row's size is an
actual number the output is sorted descending by size with ties broken
by ascending lexicographic name (rows with absent/NaN sizes are only
kept in a stable order relative to numeric-`0`-sized rows, not
name-sorted); the claim's tie-break example holds. -/
theorem c8_amended :
    (∀ r : RawRow, (toKept r).isSome = keepB r)
    ∧ (∀ rows : List RawRow, (normalizeRows rows).Perm (rows.filterMap toKept))
    ∧ (∀ rows : List RawRow,
        (∀ r ∈ rows.filterMap toKept, r.vmsize.isNum = true) →
        specSortedC8 (normalizeRows rows) = true)
    ∧ (normalizeRows [⟨.str "b", .num 100, .num 0⟩, ⟨.str "a", .num 100, .num 0⟩]).map
        NormRow.symbols = ["a", "b"] := by
  refine ⟨?_, ?_, ?_, by decide⟩
  · intro r
    cases r with
    | mk s v i =>
      cases s <;> simp [toKept, keepB] <;> split_ifs <;> simp_all
  · intro rows
    exact stableSort_perm rowBefore (rows.filterMap toKept)
  · intro rows h
    have hsorted := pairSorted_stableSort rowBefore (fun r => r.vmsize.isNum)
      (fun a b ha hb => rowBefore_total ha hb)
      (fun a b c ha hb hc hab hbc => rowBefore_trans ha hb hc hab hbc)
      (rows.filterMap toKept) h
    have hmem : ∀ x ∈ stableSort rowBefore (rows.filterMap toKept),
        x.vmsize.isNum = true :=
      fun x hx => h x ((stableSort_perm rowBefore (rows.filterMap toKept)).mem_iff.1 hx)
    unfold specSortedC8 normalizeRows
    rw [← pairSorted_congr rowBefore specLeB _
      (fun a hA b hB => rowBefore_num (hmem a hA) (hmem b hB))]
    exact hsorted

/-- C8 witness: the sortedness conjunct applied at the claim's tie-break
rows. -/
theorem c8_amended_witness :
    specSortedC8 (normalizeRows
      [⟨.str "b", .num 100, .num 0⟩, ⟨.str "a", .num 100, .num 0⟩]) = true := by
  exact c8_amended.2.2.1 _ (by decide)

/-! ## C1: size conservation through the build -/

/-- A `String.mk` of a nonempty char list is a nonempty string. -/
theorem strMk_eq_empty {l : List Char} (h : String.mk l = "") : l = [] :=
  congrArg String.data h

/-- Adding two actual numbers with `jsAdd` gives an actual number. -/
theorem jsAdd_isNum {a b : JsVal} (ha : a.isNum = true) (hb : b.isNum = true) :
    (JsVal.jsAdd a b).isNum = true := by
  cases a <;> cases b <;> simp_all [JsVal.isNum, JsVal.jsAdd, JsVal.toNum]

/-- The `x || 0` coercion on an actual number is the identity. -/
theorem jsOrZero_num (k : Int) : jsOrZero (.num k) = .num k := by
  by_cases h : k = 0 <;> simp [jsOrZero, JsVal.truthy, h]

/-- Appending a node adds its subtree sum. -/
theorem snoc_sum : ∀ (ts : TreeList) (x : TreeNode),
    sumOwnZL (snoc ts x) = sumOwnZL ts + sumOwnZ x
  | .nil, x => by simp [snoc, sumOwnZL]
  | .cons t ts, x => by
    simp only [snoc, sumOwnZL, snoc_sum ts x]
    ring

/-- Appending a node preserves the all-numeric invariant. -/
theorem snoc_allNum : ∀ (ts : TreeList) (x : TreeNode),
    allNumL (snoc ts x) = (allNumL ts && allNumT x)
  | .nil, x => by simp [snoc, allNumL]
  | .cons t ts, x => by
    simp only [snoc, allNumL, snoc_allNum ts x]
    rw [Bool.and_assoc]

/-- A freshly appended child of its own name is found. -/
theorem hasName_snoc_self (p path orig : String) :
    ∀ ts : TreeList, hasName p (snoc ts (newChild p path orig)) = true
  | .nil => by simp [snoc, hasName, findName, newChild, TreeNode.name]
  | .cons t ts => by
    simp only [snoc, hasName, findName]
    by_cases h : t.name = p
    · simp [h]
    · simp only [h, if_false]
      exact hasName_snoc_self p path orig ts

/-- Updating the first node of a given name shifts the forest sum by the
update's uniform delta and preserves the all-numeric invariant. -/
theorem updFirst_sum_allNum (p : String) (f : TreeNode → TreeNode) (d : Int)
    (hf : ∀ c, allNumT c = true →
      allNumT (f c) = true ∧ sumOwnZ (f c) = sumOwnZ c + d) :
    ∀ ts : TreeList, allNumL ts = true → hasName p ts = true →
      allNumL (updFirst p f ts) = true
      ∧ sumOwnZL (updFirst p f ts) = sumOwnZL ts + d
  | .nil, _, hn => by simp [hasName, findName] at hn
  | .cons t ts, hall, hn => by
    rw [allNumL, Bool.and_eq_true] at hall
    by_cases h : t.name = p
    · simp only [updFirst, h, if_true]
      have hft := hf t hall.1
      constructor
      · rw [allNumL, Bool.and_eq_true]
        exact ⟨hft.1, hall.2⟩
      · simp only [sumOwnZL, hft.2]
        ring
    · simp only [updFirst, h, if_false]
      have hn' : hasName p ts = true := by
        simpa [hasName, findName, h] using hn
      have ih := updFirst_sum_allNum p f d hf ts hall.2 hn'
      constructor
      · rw [allNumL, Bool.and_eq_true]
        exact ⟨hall.1, ih.1⟩
      · simp only [sumOwnZL, ih.2]
        ring

/-- The terminal update adds the record's numeric size to the node. -/
theorem addLeaf_num (v : Int) (inst : JsVal) (c : TreeNode) (hc : allNumT c = true) :
    allNumT (addLeaf (.num v) inst c) = true
    ∧ sumOwnZ (addLeaf (.num v) inst c) = sumOwnZ c + v := by
  cases c with
  | mk n s cs fp og i =>
    rw [allNumT, Bool.and_eq_true] at hc
    obtain ⟨k, hk⟩ : ∃ k, s = JsVal.num k := by
      cases hs : s <;> simp_all [JsVal.isNum]
    subst hk
    refine ⟨?_, ?_⟩
    · rw [addLeaf, jsAdd_num, allNumT, Bool.and_eq_true]
      exact ⟨rfl, hc.2⟩
    · rw [addLeaf, jsAdd_num]
      simp [sumOwnZ, JsVal.numOf]
      ring

/-- The walk's deposit flag only looks at the literal last part. -/
theorem addsB_cons_cons (x y : String) (t : List String) :
    addsB (x :: y :: t) = addsB (y :: t) := by
  unfold addsB
  rw [List.getLast?_cons_cons]

/-- Skipping a falsy part does not change the deposit flag. -/
theorem addsB_empty_cons (rest : List String) :
    addsB ("" :: rest) = addsB rest := by
  cases rest with
  | nil => simp [addsB]
  | cons q qs => exact addsB_cons_cons "" q qs

/-- Inserting one record's segment walk into a tree whose sizes are all
numeric, along a path free of inherited-property collisions, keeps every
size numeric and increases the tree's own-size sum by the record's size
exactly when the walk deposits it. -/
theorem insertSeg_sum (orig : String) (v : Int) (inst : JsVal) :
    ∀ (parts : List String) (path : String) (t : TreeNode), allNumT t = true →
      protoFree parts = true →
      allNumT (insertSeg orig (.num v) inst parts path t) = true
      ∧ sumOwnZ (insertSeg orig (.num v) inst parts path t)
          = sumOwnZ t + (if addsB parts = true then v else 0)
  | [], _, t, ht, _ => by simp [insertSeg, addsB, ht]
  | p :: rest, path, t, ht, hpf => by
    have hpf' : isProtoName p = false ∧ protoFree rest = true := by
      have := hpf
      simp only [protoFree, List.all_cons, Bool.and_eq_true, Bool.not_eq_true'] at this
      exact ⟨this.1, this.2⟩
    cases t with
    | mk n s cs fp og i =>
      by_cases hp : p = ""
      · subst hp
        have ih := insertSeg_sum orig v inst rest path (.mk n s cs fp og i) ht hpf'.2
        simp only [insertSeg, if_pos rfl]
        rw [addsB_empty_cons]
        exact ih
      · rw [allNumT, Bool.and_eq_true] at ht
        simp only [insertSeg, if_neg hp]
        rw [if_neg (by simp [hpf'.1] : ¬ ((!hasName p cs && isProtoName p) = true))]
        set path' := if path = "" then p else path ++ "::" ++ p with hpath
        set cs1 := if hasName p cs then cs else snoc cs (newChild p path' orig) with hcs1
        set d : Int := if addsB (p :: rest) = true then v else 0 with hd
        have hcs1all : allNumL cs1 = true ∧ sumOwnZL cs1 = sumOwnZL cs
            ∧ hasName p cs1 = true := by
          rw [hcs1]
          by_cases hh : hasName p cs = true
          · rw [if_pos hh]
            exact ⟨ht.2, rfl, hh⟩
          · rw [if_neg hh]
            refine ⟨?_, ?_, hasName_snoc_self p path' orig cs⟩
            · rw [snoc_allNum, ht.2]
              rfl
            · rw [snoc_sum]
              simp [newChild, sumOwnZ, sumOwnZL, JsVal.numOf]
        have hf : ∀ c, allNumT c = true →
            allNumT (insertSeg orig (.num v) inst rest path'
              (if rest.isEmpty then addLeaf (.num v) inst c else c)) = true
            ∧ sumOwnZ (insertSeg orig (.num v) inst rest path'
              (if rest.isEmpty then addLeaf (.num v) inst c else c)) = sumOwnZ c + d := by
          intro c hc
          cases rest with
          | nil =>
            have hadd := addLeaf_num v inst c hc
            have hdv : d = v := by
              rw [hd]
              simp [addsB, hp]
            simp only [List.isEmpty_nil, if_true, insertSeg]
            exact ⟨hadd.1, by rw [hadd.2, hdv]⟩
          | cons q qs =>
            have ih := insertSeg_sum orig v inst (q :: qs) path' c hc hpf'.2
            have hdq : d = if addsB (q :: qs) = true then v else 0 := by
              rw [hd, addsB_cons_cons]
            rw [if_neg (by simp : ¬ ((q :: qs).isEmpty = true))]
            exact ⟨ih.1, by rw [ih.2, hdq]⟩
        have hupd := updFirst_sum_allNum p _ d hf cs1 hcs1all.1 hcs1all.2.2
        constructor
        · rw [allNumT, Bool.and_eq_true]
          exact ⟨ht.1, hupd.1⟩
        · simp only [sumOwnZ, hupd.2, hcs1all.2.1]
          ring

/-- On a list of nonempty segments the deposit flag is "the list is
nonempty". -/
theorem addsB_all_ne : ∀ ss : List String, (∀ x ∈ ss, x ≠ "") →
    addsB ss = !ss.isEmpty
  | [], _ => rfl
  | [x], h => by
    simp [addsB, h x (List.mem_cons_self x [])]
  | x :: y :: t, h => by
    rw [addsB_cons_cons,
      addsB_all_ne (y :: t) (fun z hz => h z (List.mem_cons_of_mem x hz))]
    rfl

/-- Every segment list `processSymbol` produces is either all-nonempty
(the bracket and split branches) or a single, possibly empty, trimmed
segment (the whole-name branch). -/
theorem processSymbol_shape (s : String) (ps : List String)
    (h : processSymbol s = some ps) :
    (∀ x ∈ ps, x ≠ "") ∨ ∃ x : String, ps = [x] := by
  unfold processSymbol at h
  cases hk : stripKeywords s.data with
  | none => rw [hk] at h; cases h
  | some cs =>
    rw [hk] at h
    simp only [Option.some.injEq] at h
    subst h
    by_cases hb : headBracket cs = true
    · rw [if_pos hb]
      refine Or.inl fun x hx => ?_
      simp only [List.map_cons, List.map_nil, List.mem_singleton] at hx
      subst hx
      intro hc
      rw [strMk_eq_empty hc] at hb
      cases hb
    · rw [if_neg hb]
      by_cases hdot : cs.contains '.' = true
      · rw [if_pos hdot]
        refine Or.inl fun x hx => ?_
        simp only [List.mem_map, List.mem_filter] at hx
        obtain ⟨l, ⟨_, hl⟩, rfl⟩ := hx
        intro hc
        rw [strMk_eq_empty hc] at hl
        simp at hl
      · rw [if_neg hdot]
        by_cases hcc : hasColons cs = true
        · rw [if_pos hcc]
          refine Or.inl fun x hx => ?_
          simp only [List.mem_map, List.mem_filter] at hx
          obtain ⟨l, ⟨_, hl⟩, rfl⟩ := hx
          intro hc
          rw [strMk_eq_empty hc] at hl
          simp at hl
        · rw [if_neg hcc]
          exact Or.inr ⟨String.mk (cleanName cs), rfl⟩

/-- The claim's "yields at least one path segment" is exactly the walk's
deposit flag. -/
theorem contrib_adds {r : NormRow} {ps : List String}
    (h : processSymbol r.symbols = some ps) : contribB r = addsB ps := by
  have hc : contribB r = !(ps.filter (fun p => p ≠ "")).isEmpty := by
    unfold contribB
    rw [h]
  rw [hc]
  rcases processSymbol_shape _ _ h with hall | ⟨x, rfl⟩
  · rw [List.filter_eq_self.mpr (fun a ha => by simp [hall a ha]),
      addsB_all_ne ps hall]
  · by_cases hx : x = ""
    · subst hx; simp [addsB]
    · simp [addsB, hx]

/-- Merging a row into a map of numeric-size rows keeps all sizes
numeric. -/
theorem updRow_allNum {nm : String} {x : NormRow} (hx : x.vmsize.isNum = true) :
    ∀ acc : List NormRow, (∀ r ∈ acc, r.vmsize.isNum = true) →
      ∀ r ∈ updRow nm x acc, r.vmsize.isNum = true
  | [], _, r, hr => by simp [updRow] at hr
  | y :: ys, hacc, r, hr => by
    by_cases hy : y.symbols = nm
    · rw [updRow, if_pos hy] at hr
      rcases List.mem_cons.1 hr with rfl | hr
      · exact jsAdd_isNum (hacc y (List.mem_cons_self y ys)) hx
      · exact hacc r (List.mem_cons_of_mem y hr)
    · rw [updRow, if_neg hy] at hr
      rcases List.mem_cons.1 hr with rfl | hr
      · exact hacc r (List.mem_cons_self r ys)
      · exact updRow_allNum hx ys (fun z hz => hacc z (List.mem_cons_of_mem y hz)) r hr

/-- Membership after a `Map.set`: an element of the updated map was
already present or is the new row. -/
theorem mem_mapSet (key : String) (row : NormRow) :
    ∀ (acc : List NormRow) (z : NormRow), z ∈ mapSet key row acc → z ∈ acc ∨ z = row
  | [], z, h => by
    rcases List.mem_singleton.1 h with rfl
    exact Or.inr rfl
  | x :: xs, z, h => by
    by_cases hx : x.symbols = key
    · rw [mapSet, if_pos hx] at h
      rcases List.mem_cons.1 h with rfl | h
      · exact Or.inr rfl
      · exact Or.inl (List.mem_cons_of_mem x h)
    · rw [mapSet, if_neg hx] at h
      rcases List.mem_cons.1 h with rfl | h
      · exact Or.inl (List.mem_cons_self z xs)
      · rcases mem_mapSet key row xs z h with h' | h'
        · exact Or.inl (List.mem_cons_of_mem x h')
        · exact Or.inr h'

/-- The collapser keeps all sizes numeric. -/
theorem dedup_allNum : ∀ (rs acc : List NormRow),
    (∀ r ∈ acc, r.vmsize.isNum = true) → (∀ r ∈ rs, r.vmsize.isNum = true) →
    ∀ r ∈ dedupGo acc rs, r.vmsize.isNum = true
  | [], acc, hacc, _, r, hr => hacc r hr
  | x :: xs, acc, hacc, hrs, r, hr => by
    have hx : x.vmsize.isNum = true := hrs x (List.mem_cons_self x xs)
    have hxs : ∀ z ∈ xs, z.vmsize.isNum = true :=
      fun z hz => hrs z (List.mem_cons_of_mem x hz)
    rw [dedupGo] at hr
    split at hr
    · exact dedup_allNum xs _ (updRow_allNum hx acc hacc) hxs r hr
    · refine dedup_allNum xs _ (fun z hz => ?_) hxs r hr
      rcases mem_mapSet _ _ acc z hz with hz' | rfl
      · exact hacc z hz'
      · exact hx

/-- A failed record stops the whole fold at `none`. -/
theorem foldl_insert_none : ∀ records : List NormRow,
    records.foldl (fun acc r => acc.bind (fun t => insertRecord t r)) none = none
  | [] => rfl
  | r :: rs => by
    simp only [List.foldl_cons, Option.bind]
    exact foldl_insert_none rs

/-- Folding the insertions over numeric, inherited-collision-free
records accumulates exactly the contributing sizes. -/
theorem buildRoot_sum : ∀ (records : List NormRow) (t0 : TreeNode),
    allNumT t0 = true → (∀ r ∈ records, r.vmsize.isNum = true) →
    (∀ r ∈ records, (processSymbol r.symbols).all protoFree = true) →
    ∀ t, records.foldl (fun acc r => acc.bind (fun u => insertRecord u r)) (some t0)
        = some t →
      allNumT t = true ∧ sumOwnZ t = sumOwnZ t0 + sumContrib records
  | [], t0, h0, _, _, t, ht => by
    simp only [List.foldl_nil, Option.some.injEq] at ht
    subst ht
    exact ⟨h0, by simp [sumContrib]⟩
  | r :: rs, t0, h0, hnum, hpf, t, ht => by
    have hr : r.vmsize.isNum = true := hnum r (List.mem_cons_self r rs)
    obtain ⟨v, hv⟩ : ∃ v, r.vmsize = .num v := by
      cases hm : r.vmsize <;> simp_all [JsVal.isNum]
    simp only [List.foldl_cons] at ht
    have ht' : rs.foldl (fun acc x => acc.bind (fun u => insertRecord u x))
        (insertRecord t0 r) = some t := ht
    cases hp : processSymbol r.symbols with
    | none =>
      have hnone : insertRecord t0 r = none := by
        unfold insertRecord
        rw [hp]
      rw [hnone, foldl_insert_none rs] at ht'
      cases ht'
    | some ps =>
      have hone : insertRecord t0 r
          = some (insertSeg r.symbols (.num v) r.instantiations ps "" t0) := by
        unfold insertRecord
        rw [hp, hv]
      rw [hone] at ht'
      have hpfr : protoFree ps = true := by
        have hh := hpf r (List.mem_cons_self r rs)
        rw [hp] at hh
        simpa [Option.all] using hh
      have hins := insertSeg_sum r.symbols v r.instantiations ps "" t0 h0 hpfr
      have ih := buildRoot_sum rs _ hins.1
        (fun z hz => hnum z (List.mem_cons_of_mem r hz))
        (fun z hz => hpf z (List.mem_cons_of_mem r hz)) t ht'
      refine ⟨ih.1, ?_⟩
      rw [ih.2, hins.2]
      simp only [sumContrib, List.foldr_cons, contrib_adds hp, hv, JsVal.numOf]
      ring

mutual
/-- Aggregation writes each node's subtree own-size sum (node case). -/
theorem calcTree_size : ∀ t : TreeNode, allNumT t = true →
    (calcTree t).size = .num (sumOwnZ t)
  | .mk n s cs fp og i, h => by
    rw [allNumT, Bool.and_eq_true] at h
    obtain ⟨k, hk⟩ : ∃ k, s = JsVal.num k := by
      cases hs : s <;> simp_all [JsVal.isNum]
    subst hk
    simp only [calcTree, TreeNode.size]
    rw [jsOrZero_num, calcTreeL_sum cs h.2 0, jsAdd_num]
    simp [sumOwnZ, JsVal.numOf]
/-- Aggregation writes each node's subtree own-size sum (forest case). -/
theorem calcTreeL_sum : ∀ ts : TreeList, allNumL ts = true → ∀ a : Int,
    sumCalc (.num a) (calcTreeL ts) = .num (a + sumOwnZL ts)
  | .nil, _, a => by simp [calcTreeL, sumCalc, sumOwnZL]
  | .cons t ts, h, a => by
    rw [allNumL, Bool.and_eq_true] at h
    simp only [calcTreeL, sumCalc]
    rw [calcTree_size t h.1, jsOrZero_num, jsAdd_num, calcTreeL_sum ts h.2 (a + sumOwnZ t)]
    simp only [sumOwnZL, JsVal.num.injEq]
    ring
end

/-- C1 counterexample: on the single kept row `{"toString", 5, 0}` — a
row with a numeric size, whose name yields the one nonempty segment
`toString` — the build completes, yet `children["toString"]` reads the
truthy inherited `Object.prototype.toString`, so the guard skips child
creation, the walk deposits the size onto the inherited function, and
the aggregated root size is `0` while the post-dedup contributing sum is
`5`: conservation as claimed fails on the code. -/
theorem c1_counterexample :
    (processComplete [⟨.str "toString", .num 5, .num 0⟩]).map TreeNode.size
      = some (.num 0)
    ∧ sumContrib (dedupRecords (normalizeRows [⟨.str "toString", .num 5, .num 0⟩])) = 5
    ∧ (∀ r ∈ normalizeRows [⟨.str "toString", .num 5, .num 0⟩], r.vmsize.isNum = true)
    ∧ JsVal.num 0 ≠ JsVal.num 5 := by
  decide

/-- C1 amended: conservation holds away from inherited-property
collisions.  When every kept row's size is numeric, no canonical
record's name yields a segment equal to an `Object.prototype` property
name, and the build completes (the keyword loop can diverge, see the C10
record), the aggregated root size is exactly the sum of the sizes of the
canonical post-dedup records whose names yield at least one nonempty
path segment; records yielding zero segments contribute nothing, and a
record with a prototype-colliding segment would be silently deposited
outside the tree. -/
theorem c1_conservation :
    ∀ (rows : List RawRow) (t : TreeNode),
      (∀ r ∈ normalizeRows rows, r.vmsize.isNum = true) →
      (∀ r ∈ dedupRecords (normalizeRows rows),
        (processSymbol r.symbols).all protoFree = true) →
      processComplete rows = some t →
      t.size = .num (sumContrib (dedupRecords (normalizeRows rows))) := by
  intro rows t hnum hpf hc
  unfold processComplete at hc
  cases hb : buildRoot (dedupRecords (normalizeRows rows)) with
  | none => rw [hb] at hc; cases hc
  | some t0 =>
    rw [hb] at hc
    simp only [Option.map_some', Option.some.injEq] at hc
    have hdnum : ∀ r ∈ dedupRecords (normalizeRows rows), r.vmsize.isNum = true :=
      dedup_allNum _ [] (fun r hr => absurd hr (List.not_mem_nil r)) hnum
    have hfold : (dedupRecords (normalizeRows rows)).foldl
        (fun acc r => acc.bind (fun u => insertRecord u r)) (some rootInit) = some t0 := hb
    have hsum := buildRoot_sum (dedupRecords (normalizeRows rows)) rootInit
      (by decide) hdnum hpf t0 hfold
    rw [← hc, calcTree_size t0 hsum.1, hsum.2]
    have hroot : sumOwnZ rootInit = 0 := by decide
    rw [hroot, zero_add]

/-- A concrete build input: two contributing records of sizes 7 and 5. -/
def rowsC1 : List RawRow :=
  [⟨.str "a.b", .num 7, .num 0⟩, ⟨.str "c", .num 5, .num 0⟩]

/-- The tree the complete handler builds from `rowsC1`. -/
def treeC1 : TreeNode :=
  match processComplete rowsC1 with
  | some t => t
  | none => rootInit

/-- C1 witness: the amended conservation theorem applied at `rowsC1`. -/
theorem c1_conservation_witness : treeC1.size = JsVal.num 12 := by
  have h := c1_conservation rowsC1 treeC1 (by decide) (by decide) (by rfl)
  rw [h]
  decide
